import Mathlib

/-!
Verification of the molthub skill registry.

This file gives a shallow embedding, in Lean 4, of the registry engine and CLI
sync workflow of the molthub repository, and proves (or refutes) the claims of
its specification against that embedding.

Sources embedded:
- `convex/lib/skills.ts` : `hashSkillFiles`, `sanitizePath`, `isTextFile`,
  `publishVersionForUser` (validation and ordering of the publish pipeline);
- `convex/skills.ts` : `insertVersion`, `updateTags`, `resolveVersionByHash`,
  `visibilityFor`;
- `convex/search.ts` : `searchSkills` (candidate loop, exact-token gating,
  truncation);
- `convex/httpApiV1.ts` : `applyRateLimit`, `checkRateLimit`,
  `pickMostRestrictive`, `rateHeaders`;
- the CLI sync command : per-skill classification (`synced | update | new`),
  `resolvePublishMeta`, semver bumping.

Modelling conventions:
- JavaScript strings are Lean `String`s; string algorithms are re-implemented
  structurally over `List Char` so that every definition evaluates inside the
  kernel. `toLowerCase` is modelled on the ASCII range (all slugs, hashes and
  paths handled by the registry are ASCII).
- `localeCompare` is modelled as code-point comparison; no claim depends on
  collation fine structure, only on it being a total order with reflexive ties.
- `Array.prototype.sort` is a stable sort; it is modelled by the (stable)
  insertion sort of Mathlib with the same comparator.
- SHA-256 is implemented concretely (FIPS 180-4) over `Nat` byte lists with
  explicit `% 2^32` masking, so fingerprints of concrete inputs compute.
- The transactional document store is a record of row lists; a Convex mutation
  is atomic, which the embedding renders by `Except`: a handler that throws
  leaves no trace of its partial writes.
- External collaborators (embedding provider, blob store, changelog generator)
  enter as explicit parameters carrying their outcome.
-/

namespace Molthub

/-! ## ASCII and string primitives -/

/-- JS `toLowerCase`, modelled on the ASCII range: `A`..`Z` map to `a`..`z`. -/
def lowerChar (c : Char) : Char :=
  if 65 ≤ c.toNat ∧ c.toNat ≤ 90 then Char.ofNat (c.toNat + 32) else c

/-- Whitespace for JS `trim` (space, tab, newline, carriage return). -/
def isWs (c : Char) : Bool :=
  c = ' ' || c = '\t' || c = '\n' || c = '\r'

/-- JS `String.prototype.trim` over the character list. -/
def trimChars (l : List Char) : List Char :=
  ((l.dropWhile isWs).reverse.dropWhile isWs).reverse

/-- JS `s.trim()`. -/
def jsTrim (s : String) : String := String.mk (trimChars s.data)

/-- JS `s.toLowerCase()` (ASCII model). -/
def jsLower (s : String) : String := String.mk (s.data.map lowerChar)

/-- Containment of a pattern as a contiguous substring (JS `s.includes(pat)`). -/
def charsContain (l pat : List Char) : Bool :=
  match l with
  | [] => decide (pat = [])
  | _ :: rest => decide (pat = l.take pat.length) || charsContain rest pat

/-- JS `s.includes(pat)`. -/
def jsIncludes (s pat : String) : Bool := charsContain s.data pat.data

/-- Lexicographic order on character lists by code point, as a Bool. -/
def lexLe : List Char → List Char → Bool
  | [], _ => true
  | _ :: _, [] => false
  | a :: as, b :: bs =>
    if a.toNat < b.toNat then true
    else if b.toNat < a.toNat then false
    else lexLe as bs

theorem lexLe_refl (l : List Char) : lexLe l l = true := by
  induction l with
  | nil => rfl
  | cons a as ih => simp [lexLe, ih]

theorem lexLe_total (l₁ l₂ : List Char) : lexLe l₁ l₂ = true ∨ lexLe l₂ l₁ = true := by
  induction l₁ generalizing l₂ with
  | nil => exact Or.inl rfl
  | cons a as ih =>
    cases l₂ with
    | nil => exact Or.inr rfl
    | cons b bs =>
      by_cases hab : a.toNat < b.toNat
      · exact Or.inl (by simp [lexLe, hab])
      · by_cases hba : b.toNat < a.toNat
        · exact Or.inr (by simp [lexLe, hba])
        · rcases ih bs with h | h
          · exact Or.inl (by simp [lexLe, hab, hba, h])
          · exact Or.inr (by simp [lexLe, hab, hba, h])

theorem lexLe_antisymm {l₁ l₂ : List Char} (h₁ : lexLe l₁ l₂ = true)
    (h₂ : lexLe l₂ l₁ = true) : l₁ = l₂ := by
  induction l₁ generalizing l₂ with
  | nil =>
    cases l₂ with
    | nil => rfl
    | cons b bs => exact absurd h₂ (by simp [lexLe])
  | cons a as ih =>
    cases l₂ with
    | nil => exact absurd h₁ (by simp [lexLe])
    | cons b bs =>
      by_cases hab : a.toNat < b.toNat
      · exact absurd h₂ (by simp [lexLe, Nat.not_lt.mpr (Nat.le_of_lt hab), hab])
      · by_cases hba : b.toNat < a.toNat
        · exact absurd h₁ (by simp [lexLe, hab, hba])
        · have hn : a.toNat = b.toNat := Nat.le_antisymm (Nat.not_lt.mp hba) (Nat.not_lt.mp hab)
          have hc : a = b := Char.eq_of_val_eq (by
            apply UInt32.eq_of_toBitVec_eq
            apply BitVec.eq_of_toNat_eq
            exact hn)
          subst hc
          simp only [lexLe, Nat.lt_irrefl, if_false] at h₁ h₂
          exact congrArg (a :: ·) (ih h₁ h₂)

theorem lexLe_trans {l₁ l₂ l₃ : List Char} (h₁ : lexLe l₁ l₂ = true)
    (h₂ : lexLe l₂ l₃ = true) : lexLe l₁ l₃ = true := by
  induction l₁ generalizing l₂ l₃ with
  | nil => rfl
  | cons a as ih =>
    cases l₂ with
    | nil => exact absurd h₁ (by simp [lexLe])
    | cons b bs =>
      cases l₃ with
      | nil => exact absurd h₂ (by simp [lexLe])
      | cons c cs =>
        simp only [lexLe] at h₁ h₂ ⊢
        by_cases hab : a.toNat < b.toNat
        · by_cases hbc : b.toNat < c.toNat
          · simp [Nat.lt_trans hab hbc]
          · by_cases hcb : c.toNat < b.toNat
            · simp [hbc, hcb] at h₂
            · have : b.toNat = c.toNat := Nat.le_antisymm (Nat.not_lt.mp hcb) (Nat.not_lt.mp hbc)
              simp [this ▸ hab]
        · by_cases hba : b.toNat < a.toNat
          · simp [hab, hba] at h₁
          · have heq : a.toNat = b.toNat := Nat.le_antisymm (Nat.not_lt.mp hba) (Nat.not_lt.mp hab)
            simp only [hab, hba, if_false] at h₁
            by_cases hbc : b.toNat < c.toNat
            · simp [heq ▸ hbc]
            · by_cases hcb : c.toNat < b.toNat
              · simp [hbc, hcb] at h₂
              · simp only [hbc, hcb, if_false] at h₂
                simp [heq ▸ hbc, heq ▸ hcb, ih h₁ h₂]

/-! ## SHA-256 (FIPS 180-4), over `Nat` byte lists -/

/-- 2^32, the word modulus. -/
def M32 : Nat := 4294967296

/-- Right-rotate of a 32-bit word held in a `Nat` below `M32`. -/
def rotr (n x : Nat) : Nat := ((x >>> n) ||| (x <<< (32 - n))) % M32

/-- The 64 SHA-256 round constants. -/
def shaK : List Nat :=
  [1116352408, 1899447441, 3049323471, 3921009573, 961987163, 1508970993,
   2453635748, 2870763221, 3624381080, 310598401, 607225278, 1426881987,
   1925078388, 2162078206, 2614888103, 3248222580, 3835390401, 4022224774,
   264347078, 604807628, 770255983, 1249150122, 1555081692, 1996064986,
   2554220882, 2821834349, 2952996808, 3210313671, 3336571891, 3584528711,
   113926993, 338241895, 666307205, 773529912, 1294757372, 1396182291,
   1695183700, 1986661051, 2177026350, 2456956037, 2730485921, 2820302411,
   3259730800, 3345764771, 3516065817, 3600352804, 4094571909, 275423344,
   430227734, 506948616, 659060556, 883997877, 958139571, 1322822218,
   1537002063, 1747873779, 1955562222, 2024104815, 2227730452, 2361852424,
   2428436474, 2756734187, 3204031479, 3329325298]

/-- The eight SHA-256 initial hash values. -/
def shaH0 : List Nat :=
  [1779033703, 3144134277, 1013904242, 2773480762,
   1359893119, 2600822924, 528734635, 1541459225]

/-- Message-schedule sigma 0. -/
def ssig0 (x : Nat) : Nat := (rotr 7 x) ^^^ (rotr 18 x) ^^^ (x >>> 3)

/-- Message-schedule sigma 1. -/
def ssig1 (x : Nat) : Nat := (rotr 17 x) ^^^ (rotr 19 x) ^^^ (x >>> 10)

/-- Compression big-sigma 0. -/
def bsig0 (x : Nat) : Nat := (rotr 2 x) ^^^ (rotr 13 x) ^^^ (rotr 22 x)

/-- Compression big-sigma 1. -/
def bsig1 (x : Nat) : Nat := (rotr 6 x) ^^^ (rotr 11 x) ^^^ (rotr 25 x)

/-- Big-endian packing of bytes into 32-bit words. -/
def toWords : List Nat → List Nat
  | b0 :: b1 :: b2 :: b3 :: rest => (((b0 * 256 + b1) * 256 + b2) * 256 + b3) :: toWords rest
  | _ => []

/-- Extend a 16-word schedule by the given number of words. -/
def extendW (w : List Nat) : Nat → List Nat
  | 0 => w
  | n + 1 =>
    let t := w.length
    let w2 := ssig1 (w.getD (t - 2) 0)
    let w7 := w.getD (t - 7) 0
    let w15 := ssig0 (w.getD (t - 15) 0)
    let w16 := w.getD (t - 16) 0
    extendW (w ++ [(w2 + w7 + w15 + w16) % M32]) n

/-- The 64 compression rounds, on an 8-word state. -/
def rounds (ks ws st : List Nat) : List Nat :=
  match ks, ws with
  | k :: ks, w :: ws =>
    match st with
    | [a, b, c, d, e, f, g, h] =>
      let t1 := (h + bsig1 e + ((e &&& f) ^^^ ((M32 - 1 - e) &&& g)) + k + w) % M32
      let t2 := (bsig0 a + ((a &&& b) ^^^ (a &&& c) ^^^ (b &&& c))) % M32
      rounds ks ws [(t1 + t2) % M32, a, b, c, (d + t1) % M32, e, f, g]
    | st => st
  | _, _ => st

/-- Process one 64-byte block. -/
def compress (st block : List Nat) : List Nat :=
  let w := extendW (toWords block) 48
  let fin := rounds shaK w st
  (st.zip fin).map (fun p => (p.1 + p.2) % M32)

/-- Split a byte list into 64-byte blocks; the fuel bounds the block count. -/
def chunks (fuel : Nat) (bytes : List Nat) : List (List Nat) :=
  match fuel with
  | 0 => []
  | fuel + 1 =>
    if bytes.length = 0 then []
    else bytes.take 64 :: chunks fuel (bytes.drop 64)

/-- SHA-256 padding: `0x80`, zeros to 56 mod 64, then the 64-bit bit length. -/
def shaPad (msg : List Nat) : List Nat :=
  let l := msg.length
  let zeros := (55 + 64 - (l % 64)) % 64
  let bitLen := l * 8
  msg ++ [0x80] ++ List.replicate zeros 0 ++
    [(bitLen >>> 56) % 256, (bitLen >>> 48) % 256, (bitLen >>> 40) % 256, (bitLen >>> 32) % 256,
     (bitLen >>> 24) % 256, (bitLen >>> 16) % 256, (bitLen >>> 8) % 256, bitLen % 256]

/-- SHA-256 of a byte list, as the eight 32-bit state words. -/
def sha256 (msg : List Nat) : List Nat :=
  let padded := shaPad msg
  (chunks (padded.length / 64) padded).foldl compress shaH0

/-- Lowercase hex digit of a nibble. -/
def hexDigit (n : Nat) : Char := if n < 10 then Char.ofNat (48 + n) else Char.ofNat (87 + n)

/-- Eight lowercase hex digits of a 32-bit word. -/
def wordHex (w : Nat) : List Char :=
  [hexDigit ((w >>> 28) % 16), hexDigit ((w >>> 24) % 16), hexDigit ((w >>> 20) % 16),
   hexDigit ((w >>> 16) % 16), hexDigit ((w >>> 12) % 16), hexDigit ((w >>> 8) % 16),
   hexDigit ((w >>> 4) % 16), hexDigit (w % 16)]

/-- SHA-256 of a byte list as a 64-character lowercase hex string. -/
def sha256Hex (msg : List Nat) : String :=
  String.mk ((sha256 msg).flatMap wordHex)

/-- UTF-8 encoding of one character. -/
def utf8Char (c : Char) : List Nat :=
  let n := c.toNat
  if n < 128 then [n]
  else if n < 2048 then [192 + n / 64, 128 + n % 64]
  else if n < 65536 then [224 + n / 4096, 128 + (n / 64) % 64, 128 + n % 64]
  else [240 + n / 262144, 128 + (n / 4096) % 64, 128 + (n / 64) % 64, 128 + n % 64]

/-- UTF-8 encoding of a character list. -/
def utf8 (l : List Char) : List Nat := l.flatMap utf8Char

/-! ## The bundle fingerprint (`hashSkillFiles`, `convex/lib/skills.ts`) -/

/-- The `(path, sha256)` projection of a skill file, as consumed by
`hashSkillFiles`. -/
structure FileKey where
  path : String
  sha256 : String
deriving Repr, DecidableEq

/-- The sort comparator of `hashSkillFiles`: ascending `a.path.localeCompare(b.path)`,
modelled as code-point order on the path. -/
def pathLe (a b : FileKey) : Prop := lexLe a.path.data b.path.data = true

instance : DecidableRel pathLe := fun a b => by
  unfold pathLe
  infer_instance

instance : IsTotal FileKey pathLe := ⟨fun a b => lexLe_total a.path.data b.path.data⟩

instance : IsTrans FileKey pathLe := ⟨fun _ _ _ => lexLe_trans⟩

/-- JS `Array.prototype.sort` with the path comparator: a stable sort, modelled
by insertion sort (stable, and extensionally equal to every stable sort with
the same comparator). -/
def sortByPath (files : List FileKey) : List FileKey :=
  files.insertionSort pathLe

/-- The pre-hash payload line of one file: `path:sha256`. -/
def payloadLine (f : FileKey) : List Char := f.path.data ++ ':' :: f.sha256.data

/-- Join character lists with newlines. -/
def joinNl : List (List Char) → List Char
  | [] => []
  | [l] => l
  | l :: rest => l ++ '\n' :: joinNl rest

/-- `hashSkillFiles` (`convex/lib/skills.ts` 166-174): keep the files with a
truthy `path` and `sha256`, project to `(path, sha256)`, sort by
`path.localeCompare`, join the `path:sha256` lines with newlines, and return
the SHA-256 hex digest of the UTF-8 payload. -/
def hashSkillFiles (files : List FileKey) : String :=
  sha256Hex (utf8 (joinNl
    ((sortByPath (files.filter (fun f => f.path ≠ "" && f.sha256 ≠ ""))).map payloadLine)))

/-- The fingerprint formula in the words of the specification:
`SHA-256( join("\n", sorted_by_path( "{path}:{sha256}" )) )` over all the
files, with no other normalization. Stated for comparison with
`hashSkillFiles`. -/
def fingerprintSpec (files : List FileKey) : String :=
  sha256Hex (utf8 (joinNl ((sortByPath files).map payloadLine)))

/-- SHA-256 test vector: the empty message. -/
example : sha256Hex (utf8 "".data) =
    "e3b0c44298fc1c149afbf4c8996fb92427ae41e4649b934ca495991b7852b855" := by decide

/-- SHA-256 test vector: the three-byte message `abc`. -/
example : sha256Hex (utf8 "abc".data) =
    "ba7816bf8f01cfea414140de5dae2223b00361a396177a9cb410ff61f20015ad" := by decide

/-- The strict path order: below in path order and with a different path. -/
def pathStrict (a b : FileKey) : Prop := pathLe a b ∧ a.path ≠ b.path

instance : IsAntisymm FileKey pathStrict :=
  ⟨fun _ _ h₁ h₂ =>
    absurd (congrArg String.mk (lexLe_antisymm h₁.1 h₂.1)) h₁.2⟩

theorem sortByPath_pairwise_strict {l : List FileKey} (h : (l.map FileKey.path).Nodup) :
    (sortByPath l).Pairwise pathStrict := by
  have hs : (sortByPath l).Pairwise pathLe := List.sorted_insertionSort pathLe l
  have hp : (sortByPath l).Perm l := List.perm_insertionSort pathLe l
  have hn : ((sortByPath l).map FileKey.path).Nodup := ((hp.map FileKey.path).nodup_iff).mpr h
  have hne : (sortByPath l).Pairwise (fun a b => a.path ≠ b.path) :=
    (List.pairwise_map).mp hn
  exact hs.and hne

/-- A stable sort on distinct paths is determined by the multiset of entries. -/
theorem sortByPath_canonical {l₁ l₂ : List FileKey} (hp : l₁.Perm l₂)
    (h : (l₁.map FileKey.path).Nodup) : sortByPath l₁ = sortByPath l₂ := by
  have h₂ : (l₂.map FileKey.path).Nodup := ((hp.map FileKey.path).nodup_iff).mp h
  exact List.eq_of_perm_of_sorted
    ((List.perm_insertionSort pathLe l₁).trans (hp.trans (List.perm_insertionSort pathLe l₂).symm))
    (sortByPath_pairwise_strict h) (sortByPath_pairwise_strict h₂)

/-- C1 counterexample: two file lists that are the same multiset of
`(path, sha256)` pairs but, because of the duplicated path `a`, hash to
different fingerprints: the stable sort leaves the equal-path entries in
input order, so the two payloads differ. This refutes the claim that the
fingerprint depends only on the multiset of pairs. -/
theorem hashSkillFiles_not_multiset_determined :
    ([⟨"a", "11"⟩, ⟨"a", "22"⟩] : List FileKey).Perm [⟨"a", "22"⟩, ⟨"a", "11"⟩] ∧
    hashSkillFiles [⟨"a", "11"⟩, ⟨"a", "22"⟩] ≠ hashSkillFiles [⟨"a", "22"⟩, ⟨"a", "11"⟩] :=
  ⟨List.Perm.swap _ _ _, by decide⟩

/-- C1 (amended): for files whose `path` and `sha256` are nonempty,
`hashSkillFiles` equals the SHA-256 of the newline-join of the `path:sha256`
lines sorted (stably) by path; and on lists with pairwise-distinct paths the
fingerprint depends only on the multiset of `(path, sha256)` pairs. -/
theorem hashSkillFiles_matches_spec :
    (∀ files : List FileKey, (∀ f ∈ files, f.path ≠ "" ∧ f.sha256 ≠ "") →
       hashSkillFiles files = fingerprintSpec files) ∧
    (∀ l₁ l₂ : List FileKey, l₁.Perm l₂ → (l₁.map FileKey.path).Nodup →
       hashSkillFiles l₁ = hashSkillFiles l₂) := by
  constructor
  · intro files h
    have : files.filter (fun f => f.path ≠ "" && f.sha256 ≠ "") = files := by
      rw [List.filter_eq_self]
      intro f hf
      simp [(h f hf).1, (h f hf).2]
    unfold hashSkillFiles fingerprintSpec
    rw [this]
  · intro l₁ l₂ hp h
    have hf : (l₁.filter (fun f => f.path ≠ "" && f.sha256 ≠ "")).Perm
        (l₂.filter (fun f => f.path ≠ "" && f.sha256 ≠ "")) := hp.filter _
    have hn : ((l₁.filter (fun f => f.path ≠ "" && f.sha256 ≠ "")).map FileKey.path).Nodup :=
      h.sublist ((l₁.filter_sublist).map FileKey.path)
    unfold hashSkillFiles
    rw [sortByPath_canonical hf hn]

/-- C1 witness: both amended statements applied at concrete inputs. -/
theorem hashSkillFiles_matches_spec_witness :
    hashSkillFiles [⟨"b", "22"⟩, ⟨"a", "11"⟩] = fingerprintSpec [⟨"b", "22"⟩, ⟨"a", "11"⟩] ∧
    hashSkillFiles [⟨"b", "22"⟩, ⟨"a", "11"⟩] = hashSkillFiles [⟨"a", "11"⟩, ⟨"b", "22"⟩] :=
  ⟨hashSkillFiles_matches_spec.1 [⟨"b", "22"⟩, ⟨"a", "11"⟩] (by decide),
   hashSkillFiles_matches_spec.2 _ _ (List.Perm.swap _ _ _) (by decide)⟩

/-! ## The registry document store

The metadata store is a transactional document database. Rows carry `Nat`
document ids; tables are lists in creation order (an index range scan
returns ascending creation order, `.order('desc')` reverses it). A mutation
executes atomically: a thrown error rolls the transaction back, which the
embedding renders by returning `Except` — an error carries no partial state.
Fields that no claim touches (moderation flags, report counters, parsed
frontmatter blobs, embedding vector payloads, stat counters other than
`versions`) are elided.
-/

/-- One entry of a SkillVersion's `files` list. -/
structure SkillFile where
  path : String
  size : Nat
  storageId : Nat
  sha256 : String
  contentType : Option String
deriving Repr, DecidableEq

/-- The `(path, sha256)` key of a file, as passed to `hashSkillFiles`. -/
def SkillFile.key (f : SkillFile) : FileKey := ⟨f.path, f.sha256⟩

/-- A row of the `skills` table. -/
structure SkillRow where
  id : Nat
  slug : String
  displayName : String
  summary : Option String
  ownerUserId : Nat
  canonicalSkillId : Option Nat
  forkOfSkillId : Option Nat
  forkOfKind : Option String
  forkOfVersion : Option String
  latestVersionId : Option Nat
  tags : List (String × Nat)
  softDeletedAt : Option Nat
  statsVersions : Nat
  updatedAt : Nat
deriving Repr, DecidableEq

/-- A row of the `skillVersions` table. -/
structure VersionRow where
  id : Nat
  skillId : Nat
  version : String
  fingerprint : String
  changelog : String
  changelogSource : String
  files : List SkillFile
  createdBy : Nat
  createdAt : Nat
  softDeletedAt : Option Nat
deriving Repr, DecidableEq

/-- A row of the `skillVersionFingerprints` table. -/
structure FingerprintRow where
  skillId : Nat
  versionId : Nat
  fingerprint : String
  createdAt : Nat
deriving Repr, DecidableEq

/-- A row of the `skillEmbeddings` table. -/
structure EmbeddingRow where
  id : Nat
  skillId : Nat
  versionId : Nat
  ownerId : Nat
  isLatest : Bool
  isApproved : Bool
  visibility : String
  updatedAt : Nat
deriving Repr, DecidableEq

/-- The registry state: users (by id), moderators, skill badges
`(skillId, kind)`, and the four registry tables. `nextId` allocates fresh
document ids. -/
structure RegistryState where
  users : List Nat
  moderators : List Nat
  badges : List (Nat × String)
  skills : List SkillRow
  versions : List VersionRow
  fingerprints : List FingerprintRow
  embeddings : List EmbeddingRow
  nextId : Nat
deriving Repr, DecidableEq

/-- `visibilityFor` (`convex/skills.ts` 1551-1556). -/
def visibilityFor (isLatest isApproved : Bool) : String :=
  if isLatest && isApproved then "latest-approved"
  else if isLatest then "latest"
  else if isApproved then "archived-approved"
  else "archived"

/-- JS object-key assignment `tags[tag] = versionId` on the tag map. -/
def setTag (tags : List (String × Nat)) (k : String) (v : Nat) : List (String × Nat) :=
  if tags.any (fun p => p.1 = k) then tags.map (fun p => if p.1 = k then (k, v) else p)
  else tags ++ [(k, v)]

/-- The unique-slug index lookup (`withIndex('by_slug').unique()`). -/
def findSkillBySlug (st : RegistryState) (slug : String) : Option SkillRow :=
  st.skills.find? (fun s => s.slug = slug)

/-- `ctx.db.get` on the `skillVersions` table. -/
def getVersion (st : RegistryState) (vid : Nat) : Option VersionRow :=
  st.versions.find? (fun v => v.id = vid)

/-- Errors thrown by the registry mutations. -/
inductive RegError where
  | userNotFound
  | notOwner
  | upstreamNotFound
  | versionExists
  | uniqueViolation
  | skillNotFound
  | forbidden
  | invalidId
deriving Repr, DecidableEq

/-- The result record of `insertVersion`. -/
structure InsertResult where
  skillId : Nat
  versionId : Nat
  embeddingId : Nat
deriving Repr, DecidableEq

/-- The arguments of the `insertVersion` internal mutation. `parsedDescription`
stands for `getFrontmatterValue(args.parsed.frontmatter, 'description')`; the
frontmatter blob itself is not consulted anywhere else in the mutation. -/
structure InsertArgs where
  userId : Nat
  slug : String
  displayName : String
  version : String
  changelog : String
  changelogSource : String
  tags : List String
  fingerprint : String
  forkOf : Option (String × Option String)
  files : List SkillFile
  parsedDescription : Option String
deriving Repr, DecidableEq

/-- First fingerprint-index hit whose skill is live, for
`findCanonicalSkillForFingerprint` (`convex/skills.ts` 1563-1579). -/
def firstLiveSkill (st : RegistryState) : List FingerprintRow → Option SkillRow
  | [] => none
  | entry :: rest =>
    match st.skills.find? (fun s => s.id = entry.skillId) with
    | some sk => if sk.softDeletedAt = none then some sk else firstLiveSkill st rest
    | none => firstLiveSkill st rest

/-- `findCanonicalSkillForFingerprint`: scan up to 25 fingerprint rows for the
fingerprint and return the first whose skill exists and is not soft-deleted. -/
def findCanonicalSkillForFingerprint (st : RegistryState) (fingerprint : String) :
    Option SkillRow :=
  firstLiveSkill st ((st.fingerprints.filter (fun r => r.fingerprint = fingerprint)).take 25)

/-- The durable writes of `insertVersion` once every check has passed
(`convex/skills.ts` 1413-1488): insert the version row, update the tag map
(`latest` plus the requested tags), patch the skill, insert the new embedding
as latest, demote the previous latest embedding, insert the fingerprint row.
`sk` is the (existing or just created) skill row. -/
def newVersionRow (st : RegistryState) (sk : SkillRow) (a : InsertArgs) (now : Nat) :
    VersionRow :=
  { id := st.nextId
    skillId := sk.id
    version := a.version
    fingerprint := a.fingerprint
    changelog := a.changelog
    changelogSource := a.changelogSource
    files := a.files
    createdBy := a.userId
    createdAt := now
    softDeletedAt := none }

/-- The skill patch of `insertVersion`: the target row gets the new display
name, summary, tag map (`latest` plus the requested tags on the new version),
latest pointer and version count, and is undeleted. -/
def publishSkillPatch (st : RegistryState) (sk : SkillRow) (a : InsertArgs) (now : Nat)
    (s : SkillRow) : SkillRow :=
  if s.id = sk.id then
    { s with
      displayName := a.displayName
      summary := a.parsedDescription.orElse (fun _ => sk.summary)
      latestVersionId := some st.nextId
      tags := a.tags.foldl (fun ts t => setTag ts t st.nextId) (setTag sk.tags "latest" st.nextId)
      statsVersions := s.statsVersions + 1
      softDeletedAt := none
      updatedAt := now }
  else s

/-- The embedding row inserted as latest by `insertVersion`; approval comes
from the `redactionApproved` badge. -/
def newEmbeddingRow (st : RegistryState) (sk : SkillRow) (a : InsertArgs) (now : Nat) :
    EmbeddingRow :=
  let isApproved : Bool := (sk.id, "redactionApproved") ∈ st.badges
  { id := st.nextId + 1
    skillId := sk.id
    versionId := st.nextId
    ownerId := a.userId
    isLatest := true
    isApproved := isApproved
    visibility := visibilityFor true isApproved
    updatedAt := now }

/-- The demotion patch of the previous latest embedding. -/
def demoteEmb (latestBefore : Option Nat) (now : Nat) (e : EmbeddingRow) : EmbeddingRow :=
  if latestBefore = some e.versionId then
    { e with
      isLatest := false
      visibility := visibilityFor false e.isApproved
      updatedAt := now }
  else e

/-- The fingerprint row inserted by `insertVersion`. -/
def newFingerprintRow (st : RegistryState) (sk : SkillRow) (a : InsertArgs) (now : Nat) :
    FingerprintRow :=
  { skillId := sk.id
    versionId := st.nextId
    fingerprint := a.fingerprint
    createdAt := now }

def insertVersionApply (st : RegistryState) (sk : SkillRow) (a : InsertArgs) (now : Nat) :
    RegistryState :=
  { st with
    skills := st.skills.map (publishSkillPatch st sk a now)
    versions := st.versions ++ [newVersionRow st sk a now]
    fingerprints := st.fingerprints ++ [newFingerprintRow st sk a now]
    embeddings :=
      (st.embeddings.map (demoteEmb sk.latestVersionId now)) ++ [newEmbeddingRow st sk a now]
    nextId := st.nextId + 2 }

@[simp] theorem demoteEmb_versionId (lb : Option Nat) (now : Nat) (e : EmbeddingRow) :
    (demoteEmb lb now e).versionId = e.versionId := by
  unfold demoteEmb; split_ifs <;> rfl

@[simp] theorem demoteEmb_skillId (lb : Option Nat) (now : Nat) (e : EmbeddingRow) :
    (demoteEmb lb now e).skillId = e.skillId := by
  unfold demoteEmb; split_ifs <;> rfl

@[simp] theorem publishSkillPatch_id (st : RegistryState) (sk : SkillRow) (a : InsertArgs)
    (now : Nat) (s : SkillRow) : (publishSkillPatch st sk a now s).id = s.id := by
  unfold publishSkillPatch; split_ifs <;> rfl

/-- The checks-then-writes tail of `insertVersion` on a resolved skill row:
fail `versionExists` when the `(skillId, version)` pair is taken
(`convex/skills.ts` 1405-1411); the `.unique()` lookup of the previous latest
embedding throws when the `by_version` index holds more than one row. -/
def insertVersionCore (st : RegistryState) (sk : SkillRow) (a : InsertArgs) (now : Nat) :
    Except RegError (InsertResult × RegistryState) :=
  if st.versions.any (fun v => v.skillId = sk.id ∧ v.version = a.version) then
    .error .versionExists
  else if (match sk.latestVersionId with
    | some lb => decide (2 ≤ (st.embeddings.filter (fun e => e.versionId = lb)).length)
    | none => false) = true then
    .error .uniqueViolation
  else
    .ok ({ skillId := sk.id, versionId := st.nextId, embeddingId := st.nextId + 1 },
      insertVersionApply st sk a now)

/-- Lineage of a fresh skill (`convex/skills.ts` 1320-1356): an explicit
`forkOf` slug resolves the upstream (failing when missing or soft-deleted);
otherwise a cross-skill duplicate probe by fingerprint. Yields
`(canonicalSkillId, forkOf.skillId, forkOf.kind)`. -/
def skillLineage (st : RegistryState) (a : InsertArgs) :
    Except RegError (Option Nat × Option Nat × Option String) :=
  let forkOfSlug := match a.forkOf with
    | some p => jsLower (jsTrim p.1)
    | none => ""
  if forkOfSlug ≠ "" then
    match findSkillBySlug st forkOfSlug with
    | none => .error .upstreamNotFound
    | some up =>
      if up.softDeletedAt ≠ none then .error .upstreamNotFound
      else .ok (some (up.canonicalSkillId.getD up.id), some up.id, some "fork")
  else
    match findCanonicalSkillForFingerprint st a.fingerprint with
    | some m => .ok (some (m.canonicalSkillId.getD m.id), some m.id, some "duplicate")
    | none => .ok (none, none, none)

def createSkill (st : RegistryState) (a : InsertArgs) (now : Nat) :
    Except RegError (SkillRow × RegistryState) :=
  let forkOfVersion := a.forkOf.bind (fun p => p.2.bind (fun v =>
    if jsTrim v = "" then none else some (jsTrim v)))
  -- creation of a missing skill row inside insertVersion
  -- (convex/skills.ts 1319-1401), with lineage resolved above
  match skillLineage st a with
  | .error e => .error e
  | .ok (canonicalSkillId, forkOfSkillId, forkOfKind) =>
    let sk : SkillRow :=
      { id := st.nextId
        slug := a.slug
        displayName := a.displayName
        summary := a.parsedDescription
        ownerUserId := a.userId
        canonicalSkillId := canonicalSkillId
        forkOfSkillId := forkOfSkillId
        forkOfKind := forkOfKind
        forkOfVersion := if forkOfKind = some "fork" then forkOfVersion else none
        latestVersionId := none
        tags := []
        softDeletedAt := none
        statsVersions := 0
        updatedAt := now }
    .ok (sk, { st with skills := st.skills ++ [sk], nextId := st.nextId + 1 })

/-- `insertVersion` (`convex/skills.ts` 1272-1490): require a live user, load
the skill by slug, allow only the owner to publish updates, create the skill
when absent, then run the version insert. -/
def insertVersion (st : RegistryState) (a : InsertArgs) (now : Nat) :
    Except RegError (InsertResult × RegistryState) :=
  if a.userId ∉ st.users then .error .userNotFound
  else
    match findSkillBySlug st a.slug with
    | some sk =>
      if sk.ownerUserId ≠ a.userId then .error .notOwner
      else insertVersionCore st sk a now
    | none =>
      match createSkill st a now with
      | .error e => .error e
      | .ok (sk, st') => insertVersionCore st' sk a now

/-- The arguments of the `updateTags` mutation. -/
structure TagArgs where
  userId : Nat
  skillId : Nat
  tags : List (String × Nat)
deriving Repr, DecidableEq

def retagSkillPatch (sk : SkillRow) (a : TagArgs) (now : Nat) (s : SkillRow) : SkillRow :=
  if s.id = sk.id then
    { s with
      tags := a.tags.foldl (fun ts t => setTag ts t.1 t.2) sk.tags
      latestVersionId := match a.tags.find? (fun t => t.1 = "latest") with
        | some e => some e.2
        | none => s.latestVersionId
      updatedAt := now }
  else s

/-- The per-embedding patch applied when a `latest` tag entry moves: recompute
`isLatest` and the visibility of every embedding of the skill. -/
def retagEmbPatch (sk : SkillRow) (vid : Nat) (now : Nat) (em : EmbeddingRow) : EmbeddingRow :=
  if em.skillId = sk.id then
    { em with
      isLatest := em.versionId = vid
      visibility := visibilityFor (em.versionId = vid) em.isApproved
      updatedAt := now }
  else em

/-- The durable writes of `updateTags` (`convex/skills.ts` 813-838): merge the
tag entries into the tag map; when a `latest` entry is present also move
`latestVersionId` and recompute every embedding of the skill. -/
def updateTagsApply (st : RegistryState) (sk : SkillRow) (a : TagArgs) (now : Nat) :
    RegistryState :=
  { st with
    skills := st.skills.map (retagSkillPatch sk a now)
    embeddings := match a.tags.find? (fun t => t.1 = "latest") with
      | none => st.embeddings
      | some e => st.embeddings.map (retagEmbPatch sk e.2 now) }

@[simp] theorem retagSkillPatch_id (sk : SkillRow) (a : TagArgs) (now : Nat) (s : SkillRow) :
    (retagSkillPatch sk a now s).id = s.id := by
  unfold retagSkillPatch; split_ifs <;> rfl

@[simp] theorem retagEmbPatch_versionId (sk : SkillRow) (vid now : Nat) (em : EmbeddingRow) :
    (retagEmbPatch sk vid now em).versionId = em.versionId := by
  unfold retagEmbPatch; split_ifs <;> rfl

@[simp] theorem retagEmbPatch_skillId (sk : SkillRow) (vid now : Nat) (em : EmbeddingRow) :
    (retagEmbPatch sk vid now em).skillId = em.skillId := by
  unfold retagEmbPatch; split_ifs <;> rfl

/-- `updateTags` (`convex/skills.ts` 800-840): the argument validator accepts
only existing `skillVersions` ids; the handler requires a logged-in user and
owner-or-moderator permission on the skill. -/
def updateTags (st : RegistryState) (a : TagArgs) (now : Nat) :
    Except RegError RegistryState :=
  if ¬ a.tags.all (fun t => st.versions.any (fun v => v.id = t.2)) then .error .invalidId
  else if a.userId ∉ st.users then .error .userNotFound
  else
    match st.skills.find? (fun s => s.id = a.skillId) with
    | none => .error .skillNotFound
    | some sk =>
      if sk.ownerUserId ≠ a.userId ∧ a.userId ∉ st.moderators then .error .forbidden
      else .ok (updateTagsApply st sk a now)

/-! ## The fingerprint resolver (`resolveVersionByHash`, `convex/skills.ts` 737-798) -/

/-- The hash shape check `/^[a-f0-9]{64}$/`. -/
def isHex64 (s : String) : Bool :=
  s.data.length = 64 &&
    s.data.all (fun c => (48 ≤ c.toNat ∧ c.toNat ≤ 57) ∨ (97 ≤ c.toNat ∧ c.toNat ≤ 102))

/-- The resolver output: the fingerprint match and the current latest version,
each as a version string. -/
structure ResolveOut where
  matchVersion : Option String
  latestVersion : Option String
deriving Repr, DecidableEq

/-- The fingerprint-index lookup (`convex/skills.ts` 752-767): take up to 25
`(skillId, fingerprint)` index rows, pick the newest by `createdAt` (first
maximum, per the `reduce`), and accept its version when present and not
soft-deleted. -/
def fpLookup (st : RegistryState) (skillId : Nat) (hash : String) : Option String :=
  let fingerprintMatches :=
    (st.fingerprints.filter (fun r => r.skillId = skillId ∧ r.fingerprint = hash)).take 25
  match fingerprintMatches with
  | [] => none
  | first :: _ =>
    let newest := fingerprintMatches.foldl
      (fun best entry => if entry.createdAt > best.createdAt then entry else best) first
    match getVersion st newest.versionId with
    | some v => if v.softDeletedAt = none then some v.version else none
    | none => none

/-- The fallback scan (`convex/skills.ts` 769-791): walk the skill's versions
newest-first (up to 200), skip soft-deleted rows, and match on the stored
fingerprint or on the fingerprint recomputed from `files`. -/
def fallbackScan (hash : String) : List VersionRow → Option String
  | [] => none
  | v :: rest =>
    if v.softDeletedAt ≠ none then fallbackScan hash rest
    else if v.fingerprint = hash then some v.version
    else if hashSkillFiles (v.files.map SkillFile.key) = hash then some v.version
    else fallbackScan hash rest

/-- The resolver body on already normalized inputs. -/
def resolveNormalized (st : RegistryState) (slug hash : String) : Option ResolveOut :=
  if slug = "" ∨ isHex64 hash = false then none
  else
    match findSkillBySlug st slug with
    | none => none
    | some skill =>
      if skill.softDeletedAt ≠ none then none
      else
        let latestVersion := (skill.latestVersionId.bind (getVersion st)).map (fun v => v.version)
        let m1 := fpLookup st skill.id hash
        let m2 := match m1 with
          | some m => some m
          | none =>
            fallbackScan hash ((st.versions.filter (fun v => v.skillId = skill.id)).reverse.take 200)
        some { matchVersion := m2, latestVersion := latestVersion }

/-- `resolveVersionByHash`: trim and lowercase the slug and the hash, reject an
empty slug or a non-64-hex hash with `null`, then resolve. -/
def resolveVersionByHash (st : RegistryState) (slug hash : String) : Option ResolveOut :=
  resolveNormalized st (jsLower (jsTrim slug)) (jsLower (jsTrim hash))

/-- The resolver as a state transformer: it is a Convex query, so it returns
its answer and leaves the store untouched. -/
def resolveVersionByHashState (st : RegistryState) (slug hash : String) :
    Option ResolveOut × RegistryState :=
  (resolveVersionByHash st slug hash, st)

/-! ## Publish validation helpers (`convex/lib/skills.ts`) -/

/-- Drop the leading slashes, as `replace(/^\/+/, '')`. -/
def stripLeadingSlashes : List Char → List Char
  | '/' :: rest => stripLeadingSlashes rest
  | l => l

/-- `sanitizePath` (`convex/lib/skills.ts` 135-141): trim, strip leading
slashes, reject empty results and paths containing `..` or a backslash. -/
def sanitizePath (path : String) : Option String :=
  let trimmed := String.mk (stripLeadingSlashes (trimChars path.data))
  if trimmed = "" ∨ jsIncludes trimmed ".." = true ∨ jsIncludes trimmed "\\" = true then none
  else some trimmed

/-- Split a character list on a separator character (JS `split`). -/
def splitOnChar (sep : Char) : List Char → List (List Char)
  | [] => [[]]
  | c :: rest =>
    let tail := splitOnChar sep rest
    if c = sep then [] :: tail
    else match tail with
      | [] => [[c]]
      | t :: ts => (c :: t) :: ts

/-- Modelled from the spec: the text-file extension allow-list of the
`molthub-schema` package (not under the embedded sources); the specification
says it covers common Markdown, plain-text and config extensions. Every claim
uses it only through membership of `md` and kin. -/
def TEXT_FILE_EXTENSION_SET : List String :=
  ["md", "markdown", "txt", "text", "json", "yaml", "yml", "toml", "csv", "tsv",
   "xml", "html", "css", "js", "ts", "mjs", "cjs", "sh", "bash", "py", "rb", "ini", "cfg", "conf"]

/-- Modelled from the spec: `isTextContentType` of the `molthub-schema`
package (not under the embedded sources); a content type is textual when it
is in the `text/` tree (the spec's binary files are rejected either way). -/
def isTextContentType (contentType : String) : Bool :=
  (jsLower contentType).data.take 5 = "text/".data

/-- `isTextFile` (`convex/lib/skills.ts` 123-133): trim and lowercase the
path; accept when the content type is textual or the extension (text after
the last dot, when a dot exists) is on the allow-list. -/
def isTextFile (path : String) (contentType : Option String) : Bool :=
  let trimmed := jsLower (jsTrim path)
  if trimmed = "" then false
  else
    let parts := splitOnChar '.' trimmed.data
    let extension := if 2 ≤ parts.length then (parts.getLastD []) else []
    if (match contentType with
      | some ct => isTextContentType ct
      | none => false) then true
    else if extension ≠ [] ∧ String.mk extension ∈ TEXT_FILE_EXTENSION_SET then true
    else false

/-- The slug shape check `/^[a-z0-9][a-z0-9-]*$/`. -/
def slugOk (s : String) : Bool :=
  match s.data with
  | [] => false
  | c :: rest =>
    ((97 ≤ c.toNat ∧ c.toNat ≤ 122) ∨ (48 ≤ c.toNat ∧ c.toNat ≤ 57)) &&
      rest.all (fun d => (97 ≤ d.toNat ∧ d.toNat ≤ 122) ∨ (48 ≤ d.toNat ∧ d.toNat ≤ 57) ∨ d = '-')

/-- A nonempty all-digit character list. -/
def isDigits (l : List Char) : Bool :=
  l ≠ [] && l.all (fun c => 48 ≤ c.toNat ∧ c.toNat ≤ 57)

/-- No leading zero, per the semver numeric-identifier grammar. -/
def noLeadingZero (l : List Char) : Bool :=
  l.length = 1 || l.headD ' ' ≠ '0'

/-- `semver.valid`, modelled on the release grammar `major.minor.patch` of
numeric identifiers without leading zeros (pre-release and build suffixes are
not exercised by the registry or by any claim). -/
def semverValid (s : String) : Bool :=
  match splitOnChar '.' s.data with
  | [ma, mi, pa] =>
    isDigits ma && isDigits mi && isDigits pa &&
      noLeadingZero ma && noLeadingZero mi && noLeadingZero pa
  | _ => false

/-! ## The publish pipeline (`publishVersionForUser`, `convex/lib/skills.ts` 614-753) -/

/-- The request of a publish action (after HTTP parsing). -/
structure PublishArgs where
  slug : String
  displayName : String
  version : String
  changelog : String
  tags : List String
  forkOf : Option (String × Option String)
  files : List SkillFile
deriving Repr, DecidableEq

/-- Errors surfaced by the publish pipeline. -/
inductive PublishError where
  | slugOrNameRequired
  | slugInvalid
  | versionInvalid
  | invalidFilePaths
  | nonTextFile
  | bundleTooLarge
  | skillMdRequired
  | embeddingUnavailable
  | reg (e : RegError)
deriving Repr, DecidableEq

/-- The 50 MB bundle budget. -/
def MAX_TOTAL_BYTES : Nat := 50 * 1024 * 1024

/-- The argument record `publishVersionForUser` hands to the `insertVersion`
mutation (`convex/lib/skills.ts` 701-726): normalized slug, name and version,
the sanitized files, the bundle fingerprint over them, the user-or-auto
changelog, and the trimmed nonempty tags. -/
def publishInsertArgs (userId : Nat) (args : PublishArgs)
    (readmeDescription : Option String) (autoChangelog : String) : InsertArgs :=
  let suppliedChangelog := jsTrim args.changelog
  let changelogSource := if suppliedChangelog ≠ "" then "user" else "auto"
  let safeFiles := args.files.map (fun f => { f with path := (sanitizePath f.path).getD "" })
  { userId := userId
    slug := jsLower (jsTrim args.slug)
    displayName := jsTrim args.displayName
    version := jsTrim args.version
    changelog := if changelogSource = "user" then suppliedChangelog else autoChangelog
    changelogSource := changelogSource
    tags := (args.tags.map jsTrim).filter (fun t => t ≠ "")
    fingerprint := hashSkillFiles (safeFiles.map SkillFile.key)
    forkOf := args.forkOf.map (fun p => (p.1, p.2))
    files := safeFiles
    parsedDescription := readmeDescription }

/-- `publishVersionForUser`: normalize the slug, name and version; validate
them; sanitize every file path; reject non-text files and oversized bundles;
require a `SKILL.md`; compute the fingerprint; resolve the changelog; obtain
the embedding vector from the provider (failing `embeddingUnavailable` before
any mutation runs); and only then run the atomic `insertVersion` mutation.

External collaborators enter as parameters: `readmeDescription` is the
`description` value parsed from the SKILL.md frontmatter fetched from blob
storage, `autoChangelog` the output of the external changelog generator, and
`embedOutcome` the outcome of the embeddings provider call. The concurrent
`Promise.all` awaits are serialized; the fire-and-forget backup and webhook
scheduling after the mutation touch no registry state and are elided. -/
def publishVersionForUser (st : RegistryState) (userId : Nat) (args : PublishArgs)
    (readmeDescription : Option String) (autoChangelog : String)
    (embedOutcome : Except Unit (List Int)) (now : Nat) :
    Except PublishError (InsertResult × RegistryState) :=
  let version := jsTrim args.version
  let slug := jsLower (jsTrim args.slug)
  let displayName := jsTrim args.displayName
  if slug = "" ∨ displayName = "" then .error .slugOrNameRequired
  else if slugOk slug = false then .error .slugInvalid
  else if semverValid version = false then .error .versionInvalid
  else
    let sanitizedFiles := args.files.map (fun f => (f, sanitizePath f.path))
    if sanitizedFiles.any (fun p => p.2 = none) then .error .invalidFilePaths
    else
      let safeFiles := sanitizedFiles.map (fun p => { p.1 with path := p.2.getD "" })
      if safeFiles.any (fun f => isTextFile f.path f.contentType = false) then .error .nonTextFile
      else if MAX_TOTAL_BYTES < (safeFiles.map (fun f => f.size)).sum then .error .bundleTooLarge
      else if safeFiles.all (fun f =>
          jsLower f.path ≠ "skill.md" ∧ jsLower f.path ≠ "skills.md") then .error .skillMdRequired
      else
        match embedOutcome with
        | .error _ => .error .embeddingUnavailable
        | .ok _ =>
          match insertVersion st (publishInsertArgs userId args readmeDescription autoChangelog) now with
          | .ok r => .ok r
          | .error e => .error (.reg e)

/-- The publish action as seen by the store: an error leaves the state as it
was (the only durable step, `insertVersion`, is an atomic mutation, and it is
reached only after the embedding vector is in hand). -/
def publishOutcome (st : RegistryState) (userId : Nat) (args : PublishArgs)
    (readmeDescription : Option String) (autoChangelog : String)
    (embedOutcome : Except Unit (List Int)) (now : Nat) :
    Option PublishError × RegistryState :=
  match publishVersionForUser st userId args readmeDescription autoChangelog embedOutcome now with
  | .ok (_, st') => (none, st')
  | .error e => (some e, st)

/-- Whether an `Except` value is a success. -/
def exceptOk {ε α : Type} : Except ε α → Bool
  | .ok _ => true
  | .error _ => false

instance {ε α : Type} [DecidableEq ε] [DecidableEq α] : DecidableEq (Except ε α)
  | .ok a, .ok b =>
    if h : a = b then .isTrue (by rw [h]) else .isFalse (by simp [h])
  | .error a, .error b =>
    if h : a = b then .isTrue (by rw [h]) else .isFalse (by simp [h])
  | .ok _, .error _ => .isFalse (by simp)
  | .error _, .ok _ => .isFalse (by simp)

/-- An empty registry holding only user 1. -/
def exUserOnlySt : RegistryState :=
  { users := [1]
    moderators := []
    badges := []
    skills := []
    versions := []
    fingerprints := []
    embeddings := []
    nextId := 0 }

/-- C10: `resolveVersionByHash` uses its slug and hash only through
`trim().toLowerCase()`, so any two inputs with the same normalization (in
particular an uppercase-hex hash and its lowercase form) resolve identically;
a normalized hash that is not 64 hex characters, or an empty normalized slug,
yields `null` rather than an error; and the resolver, a Convex query, leaves
the store unchanged. -/
theorem resolveVersionByHash_normalization :
    (∀ st s₁ h₁ s₂ h₂, jsLower (jsTrim s₁) = jsLower (jsTrim s₂) →
        jsLower (jsTrim h₁) = jsLower (jsTrim h₂) →
        resolveVersionByHash st s₁ h₁ = resolveVersionByHash st s₂ h₂) ∧
    (∀ st s h, jsLower (jsTrim s) = "" ∨ isHex64 (jsLower (jsTrim h)) = false →
        resolveVersionByHash st s h = none) ∧
    (∀ st s h, (resolveVersionByHashState st s h).2 = st) := by
  refine ⟨?_, ?_, fun _ _ _ => rfl⟩
  · intro st s₁ h₁ s₂ h₂ e₁ e₂
    unfold resolveVersionByHash
    rw [e₁, e₂]
  · intro st s h hc
    unfold resolveVersionByHash resolveNormalized
    exact if_pos hc

/-- Under passing validation, the publish pipeline reaches the embedding gate
and then (only on a successful embedding) the atomic mutation. -/
theorem publish_validated (st : RegistryState) (uid : Nat) (args : PublishArgs)
    (rd : Option String) (ac : String) (emb : Except Unit (List Int)) (now : Nat)
    (h1 : ¬ (jsLower (jsTrim args.slug) = "" ∨ jsTrim args.displayName = ""))
    (h2 : slugOk (jsLower (jsTrim args.slug)) = true)
    (h3 : semverValid (jsTrim args.version) = true)
    (h4 : ∀ f ∈ args.files, sanitizePath f.path ≠ none)
    (h5 : ∀ f ∈ args.files, isTextFile ((sanitizePath f.path).getD "") f.contentType = true)
    (h6 : (args.files.map (fun f => f.size)).sum ≤ MAX_TOTAL_BYTES)
    (h7 : ∃ f ∈ args.files, jsLower ((sanitizePath f.path).getD "") = "skill.md" ∨
        jsLower ((sanitizePath f.path).getD "") = "skills.md") :
    publishVersionForUser st uid args rd ac emb now =
      match emb with
      | .error _ => .error .embeddingUnavailable
      | .ok _ =>
        match insertVersion st (publishInsertArgs uid args rd ac) now with
        | .ok r => .ok r
        | .error e => .error (.reg e) := by
  simp only [publishVersionForUser]
  split_ifs with c1 c2 c3 c4 c5 c6
  · exact absurd c1 (by simp [h2])
  · exact absurd c2 (by simp [h3])
  · simp only [List.any_eq_true, List.mem_map, decide_eq_true_eq] at c3
    obtain ⟨p, ⟨g, hg, rfl⟩, hp⟩ := c3
    exact absurd hp (h4 g hg)
  · simp only [List.map_map, List.any_eq_true, List.mem_map, Function.comp_apply,
      decide_eq_true_eq] at c4
    obtain ⟨x, ⟨g, hg, rfl⟩, hp⟩ := c4
    exact absurd (h5 g hg) (by simpa using hp)
  · simp only [List.map_map, Function.comp] at c5
    exact absurd c5 (Nat.not_lt.mpr h6)
  · simp only [List.map_map, List.all_map, List.all_eq_true, Function.comp_apply,
      decide_eq_true_eq] at c6
    obtain ⟨f, hf, hor⟩ := h7
    have hb := c6 f hf
    rcases hor with hor | hor
    · exact absurd hor hb.1
    · exact absurd hor hb.2
  · rfl

/-- C3: publish-error atomicity. (1) Whatever error the publish pipeline
fails with, the registry state is unchanged: the only durable step is the
single atomic `insertVersion` mutation, reached after every external read.
(2) For a validated request by the owner whose `(slug, version)` pair already
exists, the pipeline (with the embedding in hand) fails with the
version-exists error. (3) For a validated request whose embedding provider
call fails, the pipeline fails with the embedding-unavailable error — before
the mutation ever runs. -/
theorem publish_error_atomicity :
    (∀ st uid args rd ac emb now e,
        (publishOutcome st uid args rd ac emb now).1 = some e →
        (publishOutcome st uid args rd ac emb now).2 = st) ∧
    (∀ st uid args rd ac vec now sk,
        uid ∈ st.users →
        findSkillBySlug st (jsLower (jsTrim args.slug)) = some sk →
        sk.ownerUserId = uid →
        (∃ v ∈ st.versions, v.skillId = sk.id ∧ v.version = jsTrim args.version) →
        ¬ (jsLower (jsTrim args.slug) = "" ∨ jsTrim args.displayName = "") →
        slugOk (jsLower (jsTrim args.slug)) = true →
        semverValid (jsTrim args.version) = true →
        (∀ f ∈ args.files, sanitizePath f.path ≠ none) →
        (∀ f ∈ args.files, isTextFile ((sanitizePath f.path).getD "") f.contentType = true) →
        (args.files.map (fun f => f.size)).sum ≤ MAX_TOTAL_BYTES →
        (∃ f ∈ args.files, jsLower ((sanitizePath f.path).getD "") = "skill.md" ∨
            jsLower ((sanitizePath f.path).getD "") = "skills.md") →
        publishVersionForUser st uid args rd ac (.ok vec) now = .error (.reg .versionExists)) ∧
    (∀ st uid args rd ac now,
        ¬ (jsLower (jsTrim args.slug) = "" ∨ jsTrim args.displayName = "") →
        slugOk (jsLower (jsTrim args.slug)) = true →
        semverValid (jsTrim args.version) = true →
        (∀ f ∈ args.files, sanitizePath f.path ≠ none) →
        (∀ f ∈ args.files, isTextFile ((sanitizePath f.path).getD "") f.contentType = true) →
        (args.files.map (fun f => f.size)).sum ≤ MAX_TOTAL_BYTES →
        (∃ f ∈ args.files, jsLower ((sanitizePath f.path).getD "") = "skill.md" ∨
            jsLower ((sanitizePath f.path).getD "") = "skills.md") →
        publishVersionForUser st uid args rd ac (.error ()) now = .error .embeddingUnavailable) := by
  refine ⟨?_, ?_, ?_⟩
  · intro st uid args rd ac emb now e h
    unfold publishOutcome at h ⊢
    set res := publishVersionForUser st uid args rd ac emb now with hres
    rcases res with e2 | r
    · rfl
    · obtain ⟨r1, st2⟩ := r
      simp at h
  · intro st uid args rd ac vec now sk h0 hfind hown hdup h1 h2 h3 h4 h5 h6 h7
    rw [publish_validated st uid args rd ac (.ok vec) now h1 h2 h3 h4 h5 h6 h7]
    have hins : insertVersion st (publishInsertArgs uid args rd ac) now = .error .versionExists := by
      unfold insertVersion
      rw [if_neg (not_not_intro (show (publishInsertArgs uid args rd ac).userId ∈ st.users from h0))]
      have hslug : (publishInsertArgs uid args rd ac).slug = jsLower (jsTrim args.slug) := rfl
      simp only [hslug, hfind]
      have hne : ¬ sk.ownerUserId ≠ (publishInsertArgs uid args rd ac).userId := fun hne => hne hown
      rw [if_neg hne]
      have hAny : st.versions.any
          (fun v => decide (v.skillId = sk.id ∧ v.version = (publishInsertArgs uid args rd ac).version)) = true := by
        rw [List.any_eq_true]
        obtain ⟨v, hv, hcond⟩ := hdup
        refine ⟨v, hv, ?_⟩
        simp only [decide_eq_true_eq, publishInsertArgs]
        exact hcond
      unfold insertVersionCore
      rw [if_pos hAny]
    simp only [hins]
  · intro st uid args rd ac now h1 h2 h3 h4 h5 h6 h7
    rw [publish_validated st uid args rd ac (.error ()) now h1 h2 h3 h4 h5 h6 h7]

/-- A registry holding user 1 owning skill `demo` at version `1.0.0`. -/
def exDupSt : RegistryState :=
  { users := [1]
    moderators := []
    badges := []
    skills := [{ id := 0
                 slug := "demo"
                 displayName := "Demo"
                 summary := none
                 ownerUserId := 1
                 canonicalSkillId := none
                 forkOfSkillId := none
                 forkOfKind := none
                 forkOfVersion := none
                 latestVersionId := some 1
                 tags := [("latest", 1)]
                 softDeletedAt := none
                 statsVersions := 1
                 updatedAt := 0 }]
    versions := [{ id := 1
                   skillId := 0
                   version := "1.0.0"
                   fingerprint := "f0"
                   changelog := ""
                   changelogSource := "user"
                   files := []
                   createdBy := 1
                   createdAt := 0
                   softDeletedAt := none }]
    fingerprints := [{ skillId := 0, versionId := 1, fingerprint := "f0", createdAt := 0 }]
    embeddings := [{ id := 2
                     skillId := 0
                     versionId := 1
                     ownerId := 1
                     isLatest := true
                     isApproved := false
                     visibility := "latest"
                     updatedAt := 0 }]
    nextId := 3 }

/-- A well-formed one-file publish request for `demo@1.0.0`. -/
def exDupArgs : PublishArgs :=
  { slug := "demo"
    displayName := "Demo"
    version := "1.0.0"
    changelog := ""
    tags := []
    forkOf := none
    files := [{ path := "SKILL.md", size := 4, storageId := 100, sha256 := "ab", contentType := none }] }

/-- C3 witness: on the concrete duplicate request the pipeline fails
`versionExists` and leaves the state unchanged; with a failing embedding
provider it fails `embeddingUnavailable` and leaves the state unchanged. -/
theorem publish_error_atomicity_witness :
    publishVersionForUser exDupSt 1 exDupArgs none "auto" (.ok [1]) 9 =
      .error (.reg .versionExists) ∧
    publishVersionForUser exDupSt 1 exDupArgs none "auto" (.error ()) 9 =
      .error .embeddingUnavailable ∧
    (publishOutcome exDupSt 1 exDupArgs none "auto" (.ok [1]) 9).2 = exDupSt :=
  ⟨publish_error_atomicity.2.1 exDupSt 1 exDupArgs none "auto" [1] 9 _ (by decide) rfl
      (by decide) (by decide) (by decide) (by decide) (by decide)
      (by intro f hf; fin_cases hf; decide)
      (by intro f hf; fin_cases hf; decide) (by decide) (by decide),
   publish_error_atomicity.2.2 exDupSt 1 exDupArgs none "auto" 9 (by decide) (by decide)
      (by decide) (by intro f hf; fin_cases hf; decide)
      (by intro f hf; fin_cases hf; decide) (by decide) (by decide),
   publish_error_atomicity.1 exDupSt 1 exDupArgs none "auto" (.ok [1]) 9
      (.reg .versionExists) (by decide)⟩

/-- A publish request carrying both a `SKILL.md` and a `skills.md` file. -/
def exTwoMdArgs : PublishArgs :=
  { slug := "demo"
    displayName := "Demo"
    version := "1.0.0"
    changelog := ""
    tags := []
    forkOf := none
    files := [{ path := "SKILL.md", size := 4, storageId := 100, sha256 := "ab", contentType := none },
              { path := "skills.md", size := 4, storageId := 101, sha256 := "cd", contentType := none }] }

/-- C6 counterexample: a request whose file set contains two files matching
`SKILL.md`/`skills.md` case-insensitively is accepted by the publish pipeline
(the code only requires at least one such file), refuting the claim that it
must be rejected. -/
theorem publish_accepts_two_skill_md :
    (exTwoMdArgs.files.filter (fun f =>
        jsLower f.path = "skill.md" ∨ jsLower f.path = "skills.md")).length = 2 ∧
    exceptOk (publishVersionForUser exUserOnlySt 1 exTwoMdArgs (some "d") "auto" (.ok [1]) 7) =
      true := by
  constructor
  · decide
  · decide

/-- C6 (amended): for a request passing the earlier validations, the publish
pipeline fails with the missing-SKILL.md error iff the file set contains no
file whose (sanitized) path case-insensitively matches `SKILL.md` or
`skills.md`; in particular a request with one such file, or with two, is not
rejected for this reason. -/
theorem publish_requires_skill_md (st : RegistryState) (uid : Nat) (args : PublishArgs)
    (rd : Option String) (ac : String) (emb : Except Unit (List Int)) (now : Nat)
    (h1 : ¬ (jsLower (jsTrim args.slug) = "" ∨ jsTrim args.displayName = ""))
    (h2 : slugOk (jsLower (jsTrim args.slug)) = true)
    (h3 : semverValid (jsTrim args.version) = true)
    (h4 : ∀ f ∈ args.files, sanitizePath f.path ≠ none)
    (h5 : ∀ f ∈ args.files, isTextFile ((sanitizePath f.path).getD "") f.contentType = true)
    (h6 : (args.files.map (fun f => f.size)).sum ≤ MAX_TOTAL_BYTES) :
    ((∀ f ∈ args.files, jsLower ((sanitizePath f.path).getD "") ≠ "skill.md" ∧
        jsLower ((sanitizePath f.path).getD "") ≠ "skills.md") →
      publishVersionForUser st uid args rd ac emb now = .error .skillMdRequired) ∧
    ((∃ f ∈ args.files, jsLower ((sanitizePath f.path).getD "") = "skill.md" ∨
        jsLower ((sanitizePath f.path).getD "") = "skills.md") →
      publishVersionForUser st uid args rd ac emb now ≠ .error .skillMdRequired) := by
  constructor
  · intro hall
    simp only [publishVersionForUser]
    split_ifs with c1 c2 c3 c4 c5 c6
    · exact absurd c1 (by simp [h2])
    · exact absurd c2 (by simp [h3])
    · simp only [List.any_eq_true, List.mem_map, decide_eq_true_eq] at c3
      obtain ⟨p, ⟨g, hg, rfl⟩, hp⟩ := c3
      exact absurd hp (h4 g hg)
    · simp only [List.map_map, List.any_eq_true, List.mem_map, Function.comp_apply,
        decide_eq_true_eq] at c4
      obtain ⟨x, ⟨g, hg, rfl⟩, hp⟩ := c4
      exact absurd (h5 g hg) (by simpa using hp)
    · simp only [List.map_map, Function.comp] at c5
      exact absurd c5 (Nat.not_lt.mpr h6)
    · rfl
    · exfalso
      apply c6
      simp only [List.map_map, List.all_eq_true, List.mem_map]
      rintro x ⟨g, hg, rfl⟩
      have := hall g hg
      simpa using this
  · intro hsome
    rw [publish_validated st uid args rd ac emb now h1 h2 h3 h4 h5 h6 hsome]
    cases emb with
    | error u => simp
    | ok v =>
      cases insertVersion st (publishInsertArgs uid args rd ac) now with
      | ok r => simp
      | error e => simp

/-- C6 amended-claim witness: on a concrete request with no matching file the
pipeline fails `skillMdRequired`; on the two-file request above it does not. -/
theorem publish_requires_skill_md_witness :
    publishVersionForUser exUserOnlySt 1
        { slug := "demo"
          displayName := "Demo"
          version := "1.0.0"
          changelog := ""
          tags := []
          forkOf := none
          files := [{ path := "notes.md", size := 4, storageId := 100, sha256 := "ab", contentType := none }] }
        none "auto" (.ok [1]) 7 = .error .skillMdRequired ∧
    publishVersionForUser exUserOnlySt 1 exTwoMdArgs none "auto" (.ok [1]) 7 ≠
      .error .skillMdRequired :=
  ⟨(publish_requires_skill_md exUserOnlySt 1 _ none "auto" (.ok [1]) 7 (by decide) (by decide)
      (by decide) (by intro f hf; fin_cases hf; decide) (by intro f hf; fin_cases hf; decide)
      (by decide)).1 (by intro f hf; fin_cases hf; decide),
   (publish_requires_skill_md exUserOnlySt 1 exTwoMdArgs none "auto" (.ok [1]) 7 (by decide)
      (by decide) (by decide) (by intro f hf; fin_cases hf <;> decide)
      (by intro f hf; fin_cases hf <;> decide) (by decide)).2 (by decide)⟩

/-! ## Resolver soundness over publish-reachable states (C2) -/

/-- States produced by the publish pipeline: an empty registry (any users,
moderators and badges) followed by successful publishes. -/
inductive ReachablePub : RegistryState → Prop where
  | init (users moderators : List Nat) (badges : List (Nat × String)) (nextId : Nat) :
      ReachablePub
        { users := users
          moderators := moderators
          badges := badges
          skills := []
          versions := []
          fingerprints := []
          embeddings := []
          nextId := nextId }
  | step {st st' : RegistryState} {uid : Nat} {args : PublishArgs} {rd : Option String}
      {ac : String} {emb : Except Unit (List Int)} {now : Nat} {r : InsertResult} :
      ReachablePub st →
      publishVersionForUser st uid args rd ac emb now = .ok (r, st') →
      ReachablePub st'

/-- The fingerprint coherence invariant: every version row's stored
fingerprint is the hash of its own files; every fingerprint row agrees with
any version row bearing its `versionId`; and all version ids (also those
referenced by fingerprint rows) are below the id allocator. -/
def FingerprintInv (st : RegistryState) : Prop :=
  (∀ v ∈ st.versions, v.fingerprint = hashSkillFiles (v.files.map SkillFile.key)) ∧
  (∀ fp ∈ st.fingerprints, ∀ v ∈ st.versions, v.id = fp.versionId →
      fp.fingerprint = v.fingerprint) ∧
  (∀ v ∈ st.versions, v.id < st.nextId) ∧
  (∀ fp ∈ st.fingerprints, fp.versionId < st.nextId)

theorem createSkill_ok_tables {st : RegistryState} {a : InsertArgs} {now : Nat} {sk : SkillRow}
    {st' : RegistryState} (h : createSkill st a now = .ok (sk, st')) :
    st'.versions = st.versions ∧ st'.fingerprints = st.fingerprints ∧
      st'.embeddings = st.embeddings ∧ st'.nextId = st.nextId + 1 := by
  simp only [createSkill] at h
  split at h
  · exact absurd h (by simp)
  · simp only [Except.ok.injEq, Prod.mk.injEq] at h
    obtain ⟨-, h2⟩ := h
    subst h2
    exact ⟨rfl, rfl, rfl, rfl⟩

theorem insertVersionCore_ok_state {st : RegistryState} {sk : SkillRow} {a : InsertArgs}
    {now : Nat} {r : InsertResult} {st' : RegistryState}
    (h : insertVersionCore st sk a now = .ok (r, st')) :
    st' = insertVersionApply st sk a now := by
  unfold insertVersionCore at h
  split_ifs at h
  simp only [Except.ok.injEq, Prod.mk.injEq] at h
  exact h.2.symm

theorem insertVersionApply_fpinv {st : RegistryState} {sk : SkillRow} {a : InsertArgs} {now : Nat}
    (hfp : a.fingerprint = hashSkillFiles (a.files.map SkillFile.key))
    (inv : FingerprintInv st) : FingerprintInv (insertVersionApply st sk a now) := by
  obtain ⟨i1, i2, i3, i4⟩ := inv
  refine ⟨?_, ?_, ?_, ?_⟩
  · intro v hv
    simp only [insertVersionApply, List.mem_append, List.mem_singleton] at hv
    rcases hv with hv | hv
    · exact i1 v hv
    · subst hv; exact hfp
  · intro fp hfp2 v hv hid
    simp only [insertVersionApply, List.mem_append, List.mem_singleton] at hfp2 hv
    rcases hfp2 with hfp2 | hfp2
    · rcases hv with hv | hv
      · exact i2 fp hfp2 v hv hid
      · exfalso
        have hlt := i4 fp hfp2
        subst hv
        simp only [newVersionRow] at hid
        omega
    · subst hfp2
      rcases hv with hv | hv
      · exfalso
        have hlt := i3 v hv
        simp only [newFingerprintRow] at hid
        omega
      · subst hv
        simp [newFingerprintRow, newVersionRow, hfp]
  · intro v hv
    simp only [insertVersionApply, List.mem_append, List.mem_singleton] at hv ⊢
    rcases hv with hv | hv
    · have := i3 v hv; omega
    · subst hv; simp [newVersionRow]
  · intro fp hfp2
    simp only [insertVersionApply, List.mem_append, List.mem_singleton] at hfp2 ⊢
    rcases hfp2 with hfp2 | hfp2
    · have := i4 fp hfp2; omega
    · subst hfp2; simp [newFingerprintRow]

theorem insertVersion_fpinv {st : RegistryState} {a : InsertArgs} {now : Nat} {r : InsertResult}
    {st' : RegistryState} (h : insertVersion st a now = .ok (r, st'))
    (hfp : a.fingerprint = hashSkillFiles (a.files.map SkillFile.key))
    (inv : FingerprintInv st) : FingerprintInv st' := by
  unfold insertVersion at h
  split_ifs at h
  split at h
  · rename_i sk hsk
    split_ifs at h
    rw [insertVersionCore_ok_state h]
    exact insertVersionApply_fpinv hfp inv
  · split at h
    · exact absurd h (by simp)
    · rename_i sk st1 hcreate
      obtain ⟨e1, e2, e3, e4⟩ := createSkill_ok_tables hcreate
      rw [insertVersionCore_ok_state h]
      apply insertVersionApply_fpinv hfp
      obtain ⟨i1, i2, i3, i4⟩ := inv
      refine ⟨?_, ?_, ?_, ?_⟩
      · rw [e1]; exact i1
      · rw [e1, e2]; exact i2
      · rw [e1, e4]; intro v hv; have := i3 v hv; omega
      · rw [e2, e4]; intro fp hfp2; have := i4 fp hfp2; omega

theorem publish_ok_insert {st : RegistryState} {uid : Nat} {args : PublishArgs}
    {rd : Option String} {ac : String} {emb : Except Unit (List Int)} {now : Nat}
    {r : InsertResult} {st' : RegistryState}
    (h : publishVersionForUser st uid args rd ac emb now = .ok (r, st')) :
    insertVersion st (publishInsertArgs uid args rd ac) now = .ok (r, st') := by
  simp only [publishVersionForUser] at h
  split_ifs at h
  split at h
  · exact absurd h (by simp)
  · split at h
    · rename_i r0 heq
      simp only [Except.ok.injEq] at h
      rw [heq, h]
    · exact absurd h (by simp)

/-- Every publish-reachable state satisfies the fingerprint invariant. -/
theorem reachablePub_fpinv {st : RegistryState} (h : ReachablePub st) : FingerprintInv st := by
  induction h with
  | init users moderators badges nextId => refine ⟨?_, ?_, ?_, ?_⟩ <;> simp
  | step hr hp ih =>
    exact insertVersion_fpinv (publish_ok_insert hp) rfl ih

theorem foldl_pick_mem {α : Type} (p : α → α → Bool) (l : List α) (first : α) :
    l.foldl (fun best entry => if p entry best then entry else best) first ∈ first :: l := by
  induction l generalizing first with
  | nil => exact List.mem_singleton.mpr rfl
  | cons e es ih =>
    simp only [List.foldl_cons]
    rcases List.mem_cons.mp (ih (if p e first then e else first)) with h | h
    · rw [h]
      split_ifs
      · exact List.mem_cons_of_mem _ (List.mem_cons_self _ _)
      · exact List.mem_cons_self _ _
    · exact List.mem_cons_of_mem _ (List.mem_cons_of_mem _ h)

theorem fpLookup_sound {st : RegistryState} {skid : Nat} {hash ver : String}
    (h : fpLookup st skid hash = some ver) :
    ∃ fp ∈ st.fingerprints, fp.fingerprint = hash ∧
      ∃ v ∈ st.versions, v.id = fp.versionId ∧ v.version = ver := by
  simp only [fpLookup] at h
  split at h
  · exact absurd h (by simp)
  · rename_i first rest heq
    set fpMatches :=
      (st.fingerprints.filter (fun r => decide (r.skillId = skid ∧ r.fingerprint = hash))).take 25
      with hm
    have hmem : (fpMatches.foldl
        (fun best entry => if entry.createdAt > best.createdAt then entry else best) first) ∈
        fpMatches := by
      have hfm : first ∈ fpMatches := by rw [heq]; exact List.mem_cons_self _ _
      have := foldl_pick_mem (fun entry best => decide (entry.createdAt > best.createdAt))
        fpMatches first
      rcases List.mem_cons.mp (by simpa using this) with h1 | h1
      · rw [h1]; exact hfm
      · exact h1
    set newest := fpMatches.foldl
      (fun best entry => if entry.createdAt > best.createdAt then entry else best) first
      with hnewest
    have hnm : newest ∈ st.fingerprints ∧ newest.fingerprint = hash := by
      have h1 : newest ∈
          st.fingerprints.filter (fun r => decide (r.skillId = skid ∧ r.fingerprint = hash)) :=
        List.take_subset _ _ hmem
      have h2 := List.of_mem_filter h1
      simp only [decide_eq_true_eq] at h2
      exact ⟨List.mem_of_mem_filter h1, h2.2⟩
    split at h
    · rename_i v hv
      split_ifs at h
      simp only [Option.some.injEq] at h
      refine ⟨newest, hnm.1, hnm.2, v, ?_, ?_, h⟩
      · exact List.mem_of_find?_eq_some hv
      · have := List.find?_some hv
        simpa using this
    · exact absurd h (by simp)

theorem fallbackScan_sound {hash ver : String} {l : List VersionRow}
    (h : fallbackScan hash l = some ver) :
    ∃ v ∈ l, v.version = ver ∧
      (v.fingerprint = hash ∨ hashSkillFiles (v.files.map SkillFile.key) = hash) := by
  induction l with
  | nil => exact absurd h (by simp [fallbackScan])
  | cons v rest ih =>
    unfold fallbackScan at h
    split_ifs at h with hdel hstored hre
    · obtain ⟨w, hw, hv, hd⟩ := ih h
      exact ⟨w, List.mem_cons_of_mem _ hw, hv, hd⟩
    · simp only [Option.some.injEq] at h
      exact ⟨v, List.mem_cons_self _ _, h, Or.inl hstored⟩
    · simp only [Option.some.injEq] at h
      exact ⟨v, List.mem_cons_self _ _, h, Or.inr hre⟩
    · obtain ⟨w, hw, hv, hd⟩ := ih h
      exact ⟨w, List.mem_cons_of_mem _ hw, hv, hd⟩

/-- C2: resolver soundness. On every state produced by the publish pipeline,
when `resolveVersionByHash` answers with `match = some V` there is a stored
skill version with that version string whose files re-hash (by
`hashSkillFiles`) to exactly the requested (normalized) hash. -/
theorem resolveVersionByHash_sound {st : RegistryState} (hr : ReachablePub st) :
    ∀ slug hash out m, resolveVersionByHash st slug hash = some out →
      out.matchVersion = some m →
      ∃ v ∈ st.versions, v.version = m ∧
        hashSkillFiles (v.files.map SkillFile.key) = jsLower (jsTrim hash) := by
  obtain ⟨i1, i2, -, -⟩ := reachablePub_fpinv hr
  intro slug hash out m hres hm
  unfold resolveVersionByHash resolveNormalized at hres
  split_ifs at hres
  split at hres
  · exact absurd hres (by simp)
  · rename_i skill hskill
    split_ifs at hres
    simp only [Option.some.injEq] at hres
    subst hres
    simp only at hm
    split at hm
    · rename_i m1 hlook
      obtain ⟨fp, hfpmem, hfphash, v, hvmem, hvid, hver⟩ := fpLookup_sound hlook
      simp only [Option.some.injEq] at hm
      subst hm
      refine ⟨v, hvmem, hver, ?_⟩
      rw [← i1 v hvmem, ← i2 fp hfpmem v hvmem hvid, hfphash]
    · rename_i hlook
      obtain ⟨v, hvmem, hver, hd⟩ := fallbackScan_sound hm
      have hvin : v ∈ st.versions := by
        have h1 := List.take_subset 200 _ hvmem
        rw [List.mem_reverse] at h1
        exact List.mem_of_mem_filter h1
      refine ⟨v, hvin, hver, ?_⟩
      rcases hd with hd | hd
      · rw [← i1 v hvin]; exact hd
      · exact hd

/-- A minimal one-skill publish request used by the reachable witnesses. -/
def exPubArgs : PublishArgs :=
  { slug := "demo"
    displayName := "Demo"
    version := "1.0.0"
    changelog := ""
    tags := []
    forkOf := none
    files := [{ path := "SKILL.md", size := 4, storageId := 100, sha256 := "ab", contentType := none }] }

/-- The state reached by publishing `exPubArgs` on the one-user registry. -/
def exPubSt : RegistryState :=
  match publishVersionForUser exUserOnlySt 1 exPubArgs none "auto" (.ok [1]) 7 with
  | .ok (_, s) => s
  | .error _ => exUserOnlySt

/-- C2 witness: after one concrete publish, resolving the published bundle's
own fingerprint finds a version whose files re-hash to the requested hash. -/
theorem resolveVersionByHash_sound_witness :
    ∃ v ∈ exPubSt.versions, v.version = "1.0.0" ∧
      hashSkillFiles (v.files.map SkillFile.key) =
        jsLower (jsTrim (hashSkillFiles [⟨"SKILL.md", "ab"⟩])) :=
  resolveVersionByHash_sound
    (@ReachablePub.step exUserOnlySt exPubSt 1 exPubArgs none "auto" (.ok [1]) 7 ⟨0, 1, 2⟩
      (ReachablePub.init [1] [] [] 0) (by decide))
    "demo" (hashSkillFiles [⟨"SKILL.md", "ab"⟩])
    { matchVersion := some "1.0.0", latestVersion := some "1.0.0" } "1.0.0"
    (by decide) rfl

/-- C10 witness: on a registry with one user, a padded uppercase hash resolves
exactly as its lowercase form; a 3-character hash yields `null`; the state is
untouched. -/
theorem resolveVersionByHash_normalization_witness :
    resolveVersionByHash exUserOnlySt " DEMO "
        " AAAAAAAAAAAAAAAAAAAAAAAAAAAAAAAAAAAAAAAAAAAAAAAAAAAAAAAAAAAAAAAA " =
      resolveVersionByHash exUserOnlySt "demo"
        "aaaaaaaaaaaaaaaaaaaaaaaaaaaaaaaaaaaaaaaaaaaaaaaaaaaaaaaaaaaaaaaa" ∧
    resolveVersionByHash exUserOnlySt "demo" "f00" = none ∧
    (resolveVersionByHashState exUserOnlySt "demo" "f00").2 = exUserOnlySt :=
  ⟨resolveVersionByHash_normalization.1 exUserOnlySt _ _ _ _ (by decide) (by decide),
   resolveVersionByHash_normalization.2.1 exUserOnlySt "demo" "f00" (Or.inr (by decide)),
   resolveVersionByHash_normalization.2.2 exUserOnlySt "demo" "f00"⟩

/-! ## Embedding latestness (C4) -/

/-- A raw `insertVersion` argument record publishing `slug` with no files. -/
def mkRawInsert (slug fp : String) : InsertArgs :=
  { userId := 1
    slug := slug
    displayName := "X"
    version := "1.0.0"
    changelog := ""
    changelogSource := "user"
    tags := []
    fingerprint := fp
    forkOf := none
    files := []
    parsedDescription := none }

/-- Two publishes followed by a tag move of skill 0's `latest` onto skill 3's
version (id 4): a sequence of operations the mutations accept as is. -/
def exCrossTagSt : Option RegistryState :=
  match insertVersion exUserOnlySt (mkRawInsert "demo" "aa") 1 with
  | .ok (_, s1) =>
    match insertVersion s1 (mkRawInsert "other" "bb") 2 with
    | .ok (_, s2) =>
      match updateTags s2 { userId := 1, skillId := 0, tags := [("latest", 4)] } 3 with
      | .ok s3 => some s3
      | .error _ => none
    | .error _ => none
  | .error _ => none

/-- C4 counterexample: after two successful publishes and one successful
`updateTags` call whose `latest` entry names an existing version of the other
skill, skill 0 still has a version but zero `isLatest` embeddings — refuting
"exactly one SkillEmbedding of the skill has isLatest = true" over arbitrary
publish/tag sequences. -/
theorem updateTags_zero_latest_embeddings :
    exCrossTagSt.map (fun st =>
      ((st.embeddings.filter (fun e => e.skillId = 0 ∧ e.isLatest = true)).length,
        st.versions.any (fun v => v.skillId = 0))) = some (0, true) := by
  decide

/-- Registry states reachable from an empty registry by `insertVersion` and
`updateTags` mutations, where (per the amended claim) every tag operation's
`latest` entry names a version belonging to the tagged skill. -/
inductive ReachableOps : RegistryState → Prop where
  | init (users moderators : List Nat) (badges : List (Nat × String)) (nextId : Nat) :
      ReachableOps
        { users := users
          moderators := moderators
          badges := badges
          skills := []
          versions := []
          fingerprints := []
          embeddings := []
          nextId := nextId }
  | publish {st st' : RegistryState} {a : InsertArgs} {now : Nat} {r : InsertResult} :
      ReachableOps st → insertVersion st a now = .ok (r, st') → ReachableOps st'
  | tag {st st' : RegistryState} {a : TagArgs} {now : Nat} :
      ReachableOps st →
      (∀ t ∈ a.tags, t.1 = "latest" → ∃ v ∈ st.versions, v.id = t.2 ∧ v.skillId = a.skillId) →
      updateTags st a now = .ok st' → ReachableOps st'

/-- The embedding-latestness induction invariant. -/
structure EmbInv (st : RegistryState) : Prop where
  skillIdLt : ∀ sk ∈ st.skills, sk.id < st.nextId
  versionIdLt : ∀ v ∈ st.versions, v.id < st.nextId
  embHasVersion : ∀ e ∈ st.embeddings, ∃ v ∈ st.versions, v.id = e.versionId ∧ v.skillId = e.skillId
  embPerVersion : ∀ v ∈ st.versions, (st.embeddings.filter (fun e => e.versionId = v.id)).length = 1
  latestRef : ∀ sk ∈ st.skills, match sk.latestVersionId with
      | none => st.versions.filter (fun v => v.skillId = sk.id) = []
      | some vid => ∃ v ∈ st.versions, v.id = vid ∧ v.skillId = sk.id
  latestFlag : ∀ sk ∈ st.skills, ∀ e ∈ st.embeddings, e.skillId = sk.id →
      (e.isLatest = true ↔ sk.latestVersionId = some e.versionId)
  versionHasSkill : ∀ v ∈ st.versions, ∃ s ∈ st.skills, s.id = v.skillId
  versionIdsNodup : (st.versions.map (fun v => v.id)).Nodup
  skillIdsNodup : (st.skills.map (fun s => s.id)).Nodup


theorem filter_versionId_map_length (g : EmbeddingRow → EmbeddingRow)
    (hg : ∀ e, (g e).versionId = e.versionId) (l : List EmbeddingRow) (x : Nat) :
    ((l.map g).filter (fun e => e.versionId = x)).length =
      (l.filter (fun e => e.versionId = x)).length := by
  induction l with
  | nil => rfl
  | cons e es ih =>
    simp only [List.map_cons, List.filter_cons, hg]
    split_ifs <;> simp [ih]

theorem createSkill_ok_shape {st : RegistryState} {a : InsertArgs} {now : Nat} {sk : SkillRow}
    {st' : RegistryState} (h : createSkill st a now = .ok (sk, st')) :
    st' = { st with skills := st.skills ++ [sk], nextId := st.nextId + 1 } ∧
      sk.id = st.nextId ∧ sk.latestVersionId = none := by
  simp only [createSkill] at h
  split at h
  · exact absurd h (by simp)
  · simp only [Except.ok.injEq, Prod.mk.injEq] at h
    obtain ⟨h1, h2⟩ := h
    subst h1
    subst h2
    exact ⟨rfl, rfl, rfl⟩


theorem createSkill_embinv {st : RegistryState} {a : InsertArgs} {now : Nat} {sk : SkillRow}
    {st' : RegistryState} (h : createSkill st a now = .ok (sk, st'))
    (inv : EmbInv st) : EmbInv st' := by
  obtain ⟨hst, hid, hlat⟩ := createSkill_ok_shape h
  subst hst
  refine ⟨?_, ?_, ?_, ?_, ?_, ?_, ?_, ?_, ?_⟩ <;> dsimp only
  · intro s hs
    simp only [List.mem_append, List.mem_singleton] at hs
    rcases hs with hs | hs
    · have := inv.skillIdLt s hs; omega
    · subst hs; omega
  · intro v hv
    have := inv.versionIdLt v hv; omega
  · exact inv.embHasVersion
  · exact inv.embPerVersion
  · intro s hs
    simp only [List.mem_append, List.mem_singleton] at hs
    rcases hs with hs | hs
    · exact inv.latestRef s hs
    · subst hs
      rw [hlat]
      rw [List.filter_eq_nil_iff]
      intro v hv
      simp only [decide_eq_true_eq]
      intro hvs
      obtain ⟨s0, hs0, hs0id⟩ := inv.versionHasSkill v hv
      have := inv.skillIdLt s0 hs0
      omega
  · intro s hs e he hes
    simp only [List.mem_append, List.mem_singleton] at hs
    rcases hs with hs | hs
    · exact inv.latestFlag s hs e he hes
    · subst hs
      exfalso
      obtain ⟨v, hv, -, hvs⟩ := inv.embHasVersion e he
      obtain ⟨s0, hs0, hs0id⟩ := inv.versionHasSkill v hv
      have := inv.skillIdLt s0 hs0
      omega
  · intro v hv
    obtain ⟨s0, hs0, hs0id⟩ := inv.versionHasSkill v hv
    exact ⟨s0, List.mem_append_left _ hs0, hs0id⟩
  · exact inv.versionIdsNodup
  · rw [List.map_append, List.nodup_append]
    refine ⟨inv.skillIdsNodup, by simp, ?_⟩
    intro x hx
    simp only [List.mem_map] at hx
    obtain ⟨s0, hs0, rfl⟩ := hx
    simp only [List.map_cons, List.map_nil, List.mem_singleton]
    intro hc
    have := inv.skillIdLt s0 hs0
    omega


theorem insertVersionApply_embinv {st : RegistryState} {sk : SkillRow} {a : InsertArgs} {now : Nat}
    (inv : EmbInv st) (hmem : sk ∈ st.skills) :
    EmbInv (insertVersionApply st sk a now) := by
  have huniq : ∀ s ∈ st.skills, s.id = sk.id → s = sk :=
    fun s hs hid => List.inj_on_of_nodup_map inv.skillIdsNodup hs hmem hid
  have hEmbVidLt : ∀ e ∈ st.embeddings, e.versionId < st.nextId := by
    intro e he
    obtain ⟨v, hv, hvid, -⟩ := inv.embHasVersion e he
    have := inv.versionIdLt v hv
    omega
  have hNoCross : ∀ e ∈ st.embeddings, sk.latestVersionId = some e.versionId →
      e.skillId = sk.id := by
    intro e he hlb
    obtain ⟨v1, hv1, hv1id, hv1sk⟩ := inv.embHasVersion e he
    have hlat := inv.latestRef sk hmem
    rw [hlb] at hlat
    obtain ⟨v2, hv2, hv2id, hv2sk⟩ := hlat
    have hveq : v1 = v2 :=
      List.inj_on_of_nodup_map inv.versionIdsNodup hv1 hv2 (by rw [hv1id, hv2id])
    rw [← hv1sk, hveq, hv2sk]
  refine ⟨?_, ?_, ?_, ?_, ?_, ?_, ?_, ?_, ?_⟩
  · simp only [insertVersionApply]
    intro s hs
    rw [List.mem_map] at hs
    obtain ⟨s0, hs0, rfl⟩ := hs
    have h0 := inv.skillIdLt s0 hs0
    simp only [publishSkillPatch_id]
    omega
  · simp only [insertVersionApply]
    intro v hv
    rcases List.mem_append.mp hv with hv | hv
    · have := inv.versionIdLt v hv; omega
    · rw [List.mem_singleton] at hv; subst hv
      simp only [newVersionRow]; omega
  · simp only [insertVersionApply]
    intro e he
    rcases List.mem_append.mp he with he | he
    · rw [List.mem_map] at he
      obtain ⟨e0, he0, rfl⟩ := he
      obtain ⟨v, hv, hvid, hvsk⟩ := inv.embHasVersion e0 he0
      exact ⟨v, List.mem_append_left _ hv, by simp [hvid], by simp [hvsk]⟩
    · rw [List.mem_singleton] at he; subst he
      refine ⟨newVersionRow st sk a now,
        List.mem_append_right _ (List.mem_singleton.mpr rfl), ?_, ?_⟩
      · simp [newVersionRow, newEmbeddingRow]
      · simp [newVersionRow, newEmbeddingRow]
  · simp only [insertVersionApply]
    intro v hv
    rcases List.mem_append.mp hv with hv | hv
    · rw [List.filter_append]
      have h1 : ((st.embeddings.map (demoteEmb sk.latestVersionId now)).filter
          (fun e => e.versionId = v.id)).length = 1 := by
        rw [filter_versionId_map_length (demoteEmb sk.latestVersionId now)
          (demoteEmb_versionId sk.latestVersionId now) st.embeddings v.id]
        exact inv.embPerVersion v hv
      have h2 : (([newEmbeddingRow st sk a now]).filter
          (fun e => e.versionId = v.id)).length = 0 := by
        have hlt := inv.versionIdLt v hv
        simp only [List.filter_cons, List.filter_nil, newEmbeddingRow, decide_eq_true_eq]
        rw [if_neg (by omega)]
        rfl
      rw [List.length_append, h1, h2]
    · rw [List.mem_singleton] at hv; subst hv
      rw [List.filter_append]
      have h1 : ((st.embeddings.map (demoteEmb sk.latestVersionId now)).filter
          (fun e => e.versionId = (newVersionRow st sk a now).id)).length = 0 := by
        rw [List.length_eq_zero, List.filter_eq_nil_iff]
        intro e he
        rw [List.mem_map] at he
        obtain ⟨e0, he0, rfl⟩ := he
        have := hEmbVidLt e0 he0
        simp only [demoteEmb_versionId, newVersionRow, decide_eq_true_eq]
        omega
      have h2 : (([newEmbeddingRow st sk a now]).filter
          (fun e => e.versionId = (newVersionRow st sk a now).id)).length = 1 := by
        simp [newEmbeddingRow, newVersionRow]
      rw [List.length_append, h1, h2]
  · simp only [insertVersionApply]
    intro s hs
    rw [List.mem_map] at hs
    obtain ⟨s0, hs0, rfl⟩ := hs
    by_cases hc : s0.id = sk.id
    · simp only [publishSkillPatch, if_pos hc]
      refine ⟨newVersionRow st sk a now,
        List.mem_append_right _ (List.mem_singleton.mpr rfl), rfl, ?_⟩
      simp [newVersionRow, hc]
    · simp only [publishSkillPatch, if_neg hc]
      have h0 := inv.latestRef s0 hs0
      cases hl : s0.latestVersionId with
      | none =>
        rw [hl] at h0
        rw [List.filter_append, h0]
        simp only [List.nil_append, List.filter_cons, List.filter_nil, newVersionRow,
          decide_eq_true_eq]
        rw [if_neg (fun hccc => hc hccc.symm)]
      | some vid =>
        rw [hl] at h0
        obtain ⟨v, hv, hvid, hvsk⟩ := h0
        exact ⟨v, List.mem_append_left _ hv, hvid, hvsk⟩
  · simp only [insertVersionApply]
    intro s hs e he hesk
    rw [List.mem_map] at hs
    obtain ⟨s0, hs0, rfl⟩ := hs
    rcases List.mem_append.mp he with he | he
    · rw [List.mem_map] at he
      obtain ⟨e0, he0, rfl⟩ := he
      simp only [demoteEmb_skillId, publishSkillPatch_id] at hesk
      by_cases hc : s0.id = sk.id
      · have hs0sk : s0 = sk := huniq s0 hs0 hc
        subst hs0sk
        by_cases hd : s0.latestVersionId = some e0.versionId
        · have hlt := hEmbVidLt e0 he0
          simp only [demoteEmb, if_pos hd, publishSkillPatch, ite_true, eq_self_iff_true,
            demoteEmb_versionId]
          simp only [Bool.false_eq_true, false_iff, Option.some.injEq]
          omega
        · have hflag := inv.latestFlag s0 hs0 e0 he0 hesk
          have hlt := hEmbVidLt e0 he0
          simp only [demoteEmb, if_neg hd, publishSkillPatch, ite_true, eq_self_iff_true]
          rw [hflag]
          constructor
          · intro hcon; exact absurd hcon hd
          · intro hcon
            simp only [Option.some.injEq] at hcon
            omega
      · have hnd : ¬ (sk.latestVersionId = some e0.versionId) := by
          intro hd
          apply hc
          rw [← hesk]
          exact hNoCross e0 he0 hd
        simp only [demoteEmb, if_neg hnd, publishSkillPatch, if_neg hc]
        exact inv.latestFlag s0 hs0 e0 he0 hesk
    · rw [List.mem_singleton] at he
      subst he
      simp only [newEmbeddingRow, publishSkillPatch_id] at hesk
      have hs0sk : s0 = sk := huniq s0 hs0 hesk.symm
      subst hs0sk
      simp [publishSkillPatch, newEmbeddingRow]
  · simp only [insertVersionApply]
    intro v hv
    rcases List.mem_append.mp hv with hv | hv
    · obtain ⟨s0, hs0, hs0id⟩ := inv.versionHasSkill v hv
      refine ⟨publishSkillPatch st sk a now s0, List.mem_map_of_mem _ hs0, ?_⟩
      simpa using hs0id
    · rw [List.mem_singleton] at hv
      subst hv
      refine ⟨publishSkillPatch st sk a now sk, List.mem_map_of_mem _ hmem, ?_⟩
      simp [newVersionRow]
  · simp only [insertVersionApply]
    rw [List.map_append, List.nodup_append]
    refine ⟨inv.versionIdsNodup, by simp, ?_⟩
    intro x hx
    rw [List.mem_map] at hx
    obtain ⟨v, hv, rfl⟩ := hx
    have := inv.versionIdLt v hv
    simp only [List.map_cons, List.map_nil, List.mem_singleton, newVersionRow]
    omega
  · simp only [insertVersionApply]
    rw [List.map_map]
    have heq : ((fun s : SkillRow => s.id) ∘ publishSkillPatch st sk a now) =
        fun s : SkillRow => s.id :=
      funext fun s => publishSkillPatch_id st sk a now s
    rw [heq]
    exact inv.skillIdsNodup


theorem insertVersion_embinv {st : RegistryState} {a : InsertArgs} {now : Nat} {r : InsertResult}
    {st' : RegistryState} (h : insertVersion st a now = .ok (r, st'))
    (inv : EmbInv st) : EmbInv st' := by
  unfold insertVersion at h
  split_ifs at h
  split at h
  · rename_i sk hsk
    split_ifs at h
    rw [insertVersionCore_ok_state h]
    exact insertVersionApply_embinv inv
      (List.mem_of_find?_eq_some (by simpa [findSkillBySlug] using hsk))
  · split at h
    · exact absurd h (by simp)
    · rename_i sk st1 hcreate
      rw [insertVersionCore_ok_state h]
      have hinv1 := createSkill_embinv hcreate inv
      obtain ⟨hshape, -, -⟩ := createSkill_ok_shape hcreate
      apply insertVersionApply_embinv hinv1
      rw [hshape]
      exact List.mem_append_right _ (List.mem_singleton.mpr rfl)

theorem updateTags_ok_shape {st : RegistryState} {a : TagArgs} {now : Nat} {st' : RegistryState}
    (h : updateTags st a now = .ok st') :
    ∃ sk ∈ st.skills, sk.id = a.skillId ∧ st' = updateTagsApply st sk a now := by
  unfold updateTags at h
  split_ifs at h
  split at h
  · exact absurd h (by simp)
  · rename_i sk hsk
    split_ifs at h
    simp only [Except.ok.injEq] at h
    refine ⟨sk, List.mem_of_find?_eq_some hsk, ?_, h.symm⟩
    have := List.find?_some hsk
    simpa using this

theorem updateTagsApply_embinv {st : RegistryState} {sk : SkillRow} {a : TagArgs} {now : Nat}
    (inv : EmbInv st) (hmem : sk ∈ st.skills) (hskid : sk.id = a.skillId)
    (hgood : ∀ t ∈ a.tags, t.1 = "latest" →
        ∃ v ∈ st.versions, v.id = t.2 ∧ v.skillId = a.skillId) :
    EmbInv (updateTagsApply st sk a now) := by
  have huniq : ∀ s ∈ st.skills, s.id = sk.id → s = sk :=
    fun s hs hid => List.inj_on_of_nodup_map inv.skillIdsNodup hs hmem hid
  cases hfind : a.tags.find? (fun t => t.1 = "latest") with
  | none =>
    refine ⟨?_, ?_, ?_, ?_, ?_, ?_, ?_, ?_, ?_⟩ <;> simp only [updateTagsApply, hfind]
    · intro s hs
      rw [List.mem_map] at hs
      obtain ⟨s0, hs0, rfl⟩ := hs
      have := inv.skillIdLt s0 hs0
      simpa using this
    · exact inv.versionIdLt
    · exact inv.embHasVersion
    · exact inv.embPerVersion
    · intro s hs
      rw [List.mem_map] at hs
      obtain ⟨s0, hs0, rfl⟩ := hs
      have h0 := inv.latestRef s0 hs0
      by_cases hc : s0.id = sk.id
      · simp only [retagSkillPatch, if_pos hc, hfind]
        exact h0
      · simp only [retagSkillPatch, if_neg hc]
        exact h0
    · intro s hs em hem hesk
      rw [List.mem_map] at hs
      obtain ⟨s0, hs0, rfl⟩ := hs
      simp only [retagSkillPatch_id] at hesk
      by_cases hc : s0.id = sk.id
      · simp only [retagSkillPatch, if_pos hc, hfind]
        exact inv.latestFlag s0 hs0 em hem hesk
      · simp only [retagSkillPatch, if_neg hc]
        exact inv.latestFlag s0 hs0 em hem hesk
    · intro v hv
      obtain ⟨s0, hs0, hs0id⟩ := inv.versionHasSkill v hv
      refine ⟨retagSkillPatch sk a now s0, List.mem_map_of_mem _ hs0, ?_⟩
      simpa using hs0id
    · exact inv.versionIdsNodup
    · rw [List.map_map]
      have heq : ((fun s : SkillRow => s.id) ∘ retagSkillPatch sk a now) =
          fun s : SkillRow => s.id :=
        funext fun s => retagSkillPatch_id sk a now s
      rw [heq]
      exact inv.skillIdsNodup
  | some e =>
    have he1 : e.1 = "latest" := by simpa using List.find?_some hfind
    have hemem : e ∈ a.tags := List.mem_of_find?_eq_some hfind
    obtain ⟨vL, hvL, hvLid, hvLsk⟩ := hgood e hemem he1
    rw [← hskid] at hvLsk
    refine ⟨?_, ?_, ?_, ?_, ?_, ?_, ?_, ?_, ?_⟩ <;> simp only [updateTagsApply, hfind]
    · intro s hs
      rw [List.mem_map] at hs
      obtain ⟨s0, hs0, rfl⟩ := hs
      have := inv.skillIdLt s0 hs0
      simpa using this
    · exact inv.versionIdLt
    · intro em hem
      rw [List.mem_map] at hem
      obtain ⟨em0, hem0, rfl⟩ := hem
      obtain ⟨v, hv, hvid, hvsk⟩ := inv.embHasVersion em0 hem0
      exact ⟨v, hv, by simpa using hvid, by simpa using hvsk⟩
    · intro v hv
      rw [filter_versionId_map_length (retagEmbPatch sk e.2 now)
        (retagEmbPatch_versionId sk e.2 now) st.embeddings v.id]
      exact inv.embPerVersion v hv
    · intro s hs
      rw [List.mem_map] at hs
      obtain ⟨s0, hs0, rfl⟩ := hs
      by_cases hc : s0.id = sk.id
      · simp only [retagSkillPatch, if_pos hc, hfind]
        exact ⟨vL, hvL, hvLid, by rw [hvLsk, hc]⟩
      · simp only [retagSkillPatch, if_neg hc]
        exact inv.latestRef s0 hs0
    · intro s hs em hem hesk
      rw [List.mem_map] at hs
      obtain ⟨s0, hs0, rfl⟩ := hs
      rw [List.mem_map] at hem
      obtain ⟨em0, hem0, rfl⟩ := hem
      simp only [retagEmbPatch_skillId, retagSkillPatch_id] at hesk
      by_cases hc : s0.id = sk.id
      · have hs0sk : s0 = sk := huniq s0 hs0 hc
        subst hs0sk
        have hesk0 : em0.skillId = s0.id := hesk
        simp only [retagEmbPatch, if_pos hesk0, retagSkillPatch, ite_true, eq_self_iff_true,
          hfind]
        simp only [decide_eq_true_eq, Option.some.injEq]
        constructor
        · intro hcon; rw [hcon]
        · intro hcon; rw [hcon]
      · have hne : ¬ em0.skillId = sk.id := by rw [hesk]; exact hc
        simp only [retagEmbPatch, if_neg hne, retagSkillPatch, if_neg hc]
        exact inv.latestFlag s0 hs0 em0 hem0 hesk
    · intro v hv
      obtain ⟨s0, hs0, hs0id⟩ := inv.versionHasSkill v hv
      refine ⟨retagSkillPatch sk a now s0, List.mem_map_of_mem _ hs0, ?_⟩
      simpa using hs0id
    · exact inv.versionIdsNodup
    · rw [List.map_map]
      have heq : ((fun s : SkillRow => s.id) ∘ retagSkillPatch sk a now) =
          fun s : SkillRow => s.id :=
        funext fun s => retagSkillPatch_id sk a now s
      rw [heq]
      exact inv.skillIdsNodup


theorem reachableOps_embinv {st : RegistryState} (h : ReachableOps st) : EmbInv st := by
  induction h with
  | init users moderators badges nextId =>
    refine ⟨?_, ?_, ?_, ?_, ?_, ?_, ?_, ?_, ?_⟩ <;> simp
  | publish _ hins ih => exact insertVersion_embinv hins ih
  | tag _ hgood hupd ih =>
    obtain ⟨sk, hmem, hskid, hst'⟩ := updateTags_ok_shape hupd
    subst hst'
    exact updateTagsApply_embinv ih hmem hskid hgood

/-- C4 (amended): after any sequence of successful `insertVersion` and
`updateTags` mutations in which every `latest` tag entry names a version of the
tagged skill, every skill with at least one version has exactly one
`skillEmbeddings` row with `isLatest = true`, and every such row's `versionId`
equals the skill's `latestVersionId`. (The unamended claim, over arbitrary
accepted tag operations, is refuted by `updateTags_zero_latest_embeddings`.) -/
theorem embedding_latestness {st : RegistryState} (hre : ReachableOps st)
    {sk : SkillRow} (hsk : sk ∈ st.skills)
    (hver : ∃ v ∈ st.versions, v.skillId = sk.id) :
    (st.embeddings.filter (fun e => e.skillId = sk.id ∧ e.isLatest = true)).length = 1 ∧
      ∀ e ∈ st.embeddings, e.skillId = sk.id ∧ e.isLatest = true →
        sk.latestVersionId = some e.versionId := by
  have inv := reachableOps_embinv hre
  obtain ⟨v0, hv0, hv0sk⟩ := hver
  have hlat := inv.latestRef sk hsk
  cases hcase : sk.latestVersionId with
  | none =>
    rw [hcase] at hlat
    exfalso
    have := List.filter_eq_nil_iff.mp hlat v0 hv0
    simp [hv0sk] at this
  | some vid =>
    rw [hcase] at hlat
    obtain ⟨vL, hvL, hvLid, hvLsk⟩ := hlat
    have hvuniq : ∀ v ∈ st.versions, v.id = vL.id → v = vL :=
      fun v hv hid => List.inj_on_of_nodup_map inv.versionIdsNodup hv hvL hid
    have hiff : ∀ e ∈ st.embeddings,
        (e.skillId = sk.id ∧ e.isLatest = true) ↔ e.versionId = vid := by
      intro e he
      constructor
      · rintro ⟨hesk, hl⟩
        have hsome := (inv.latestFlag sk hsk e he hesk).mp hl
        rw [hcase] at hsome
        exact (Option.some.inj hsome).symm
      · intro hev
        obtain ⟨v', hv', hv'id, hv'sk⟩ := inv.embHasVersion e he
        have hveq : v' = vL := hvuniq v' hv' (by rw [hv'id, hev, hvLid])
        have hesk : e.skillId = sk.id := by rw [← hv'sk, hveq, hvLsk]
        refine ⟨hesk, (inv.latestFlag sk hsk e he hesk).mpr ?_⟩
        rw [hcase, hev]
    have hfe : st.embeddings.filter (fun e => decide (e.skillId = sk.id ∧ e.isLatest = true)) =
        st.embeddings.filter (fun e => decide (e.versionId = vid)) :=
      List.filter_congr (fun e he => by rw [decide_eq_decide]; exact hiff e he)
    constructor
    · rw [hfe, ← hvLid]
      exact inv.embPerVersion vL hvL
    · intro e he hq
      have hsome := (inv.latestFlag sk hsk e he hq.1).mp hq.2
      rw [hcase] at hsome
      exact hsome


/-- The skill row created by publishing `demo` (fingerprint `"aa"`) into
`exUserOnlySt` at time 1. -/
def exC4Skill : SkillRow :=
  { id := 0
    slug := "demo"
    displayName := "X"
    summary := none
    ownerUserId := 1
    canonicalSkillId := none
    forkOfSkillId := none
    forkOfKind := none
    forkOfVersion := none
    latestVersionId := some 1
    tags := [("latest", 1)]
    softDeletedAt := none
    statsVersions := 1
    updatedAt := 1 }

/-- The version row of that publish. -/
def exC4Ver : VersionRow :=
  { id := 1
    skillId := 0
    version := "1.0.0"
    fingerprint := "aa"
    changelog := ""
    changelogSource := "user"
    files := []
    createdBy := 1
    createdAt := 1
    softDeletedAt := none }

/-- The registry state after that publish. -/
def exC4St : RegistryState :=
  { users := [1]
    moderators := []
    badges := []
    skills := [exC4Skill]
    versions := [exC4Ver]
    fingerprints := [{ skillId := 0, versionId := 1, fingerprint := "aa", createdAt := 1 }]
    embeddings := [{ id := 2
                     skillId := 0
                     versionId := 1
                     ownerId := 1
                     isLatest := true
                     isApproved := false
                     visibility := "latest"
                     updatedAt := 1 }]
    nextId := 3 }

theorem embedding_latestness_witness :
    (exC4St.embeddings.filter (fun e => e.skillId = exC4Skill.id ∧ e.isLatest = true)).length
        = 1 ∧
      ∀ e ∈ exC4St.embeddings, e.skillId = exC4Skill.id ∧ e.isLatest = true →
        exC4Skill.latestVersionId = some e.versionId :=
  embedding_latestness
    (@ReachableOps.publish exUserOnlySt exC4St (mkRawInsert "demo" "aa") 1 ⟨0, 1, 2⟩
      (ReachableOps.init [1] [] [] 0) (by decide))
    (by decide) ⟨exC4Ver, by decide, by decide⟩


/-! ## Search engine (`convex/search.ts`) -/

/-- A vector-index hit: embedding document id and score, in index rank order. -/
structure VecHit where
  id : Nat
  score : Nat
deriving Repr, DecidableEq

/-- The skill fields consulted by the exact-token filter, plus the
`highlighted` badge bit consulted by `isSkillHighlighted`. -/
structure SkillInfo where
  displayName : String
  slug : String
  summary : Option String
  highlighted : Bool
deriving Repr, DecidableEq

/-- A hydrated search entry (`hydrateResults` only returns entries whose
embedding and skill rows exist and whose skill is not soft-deleted, so the
skill data is always present here and the final `.filter((entry) =>
entry.skill)` of `searchSkills` is the identity). -/
structure HydEntry where
  embeddingId : Nat
  info : SkillInfo
deriving Repr, DecidableEq

/-- `hydrateResults` (`convex/search.ts` 104-135): hydration of each embedding
id, dropping ids whose rows are missing or soft-deleted (`hyd i = none`). -/
def hydrateResults (hyd : Nat → Option SkillInfo) (ids : List Nat) : List HydEntry :=
  ids.filterMap (fun i => (hyd i).map (fun s => { embeddingId := i, info := s }))

/-- ASCII alphanumeric test for the tokenizer. -/
def isAlnum (c : Char) : Bool :=
  ('a' ≤ c && c ≤ 'z') || ('A' ≤ c && c ≤ 'Z') || ('0' ≤ c && c ≤ '9')

/-- Modelled from the spec: `convex/lib/searchText.ts` is not part of the
provided sources; §4.3 step 1 specifies tokenization as "lowercase
alphanumeric runs of length ≥ 2; strip stop characters". `acc` holds the
current run in reverse. -/
def tokenRuns : List Char → List Char → List (List Char)
  | acc, [] => if 2 ≤ acc.length then [acc.reverse] else []
  | acc, c :: cs =>
    if isAlnum c then tokenRuns (lowerChar c :: acc) cs
    else (if 2 ≤ acc.length then [acc.reverse] else []) ++ tokenRuns [] cs

/-- Modelled from the spec: the query/field tokenizer of
`convex/lib/searchText.ts` (§4.3 step 1). -/
def tokenize (s : String) : List String :=
  (tokenRuns [] s.data).map String.mk

/-- Modelled from the spec: `matchesExactTokens` of `convex/lib/searchText.ts`
(§4.3 step 6) — every query token must occur as a whole word, case
insensitively, in the concatenation of the given fields. -/
def matchesExactTokens (qtoks : List String) (fields : List (Option String)) : Bool :=
  let text := fields.foldl (fun acc f => acc ++ (match f with | some s => s | none => "") ++ " ") ""
  qtoks.all (fun t => (tokenize text).contains t)

/-- `getNextCandidateLimit` (`convex/search.ts` 18-21). -/
def getNextCandidateLimit (current maxC : Nat) : Option Nat :=
  let next := min (current * 2) maxC
  if current < next then some next else none

/-- The `highlightedOnly` filter (`convex/search.ts` 73-75). -/
def searchFiltered (highlightedOnly : Bool) (hydrated : List HydEntry) : List HydEntry :=
  if highlightedOnly then hydrated.filter (fun e => e.info.highlighted) else hydrated

/-- The exact-token qualification test applied to one hydrated entry
(`convex/search.ts` 77-83). -/
def searchQualifies (qtoks : List String) (e : HydEntry) : Bool :=
  matchesExactTokens qtoks [some e.info.displayName, some e.info.slug, e.info.summary]

/-- One iteration's hydration + highlight filter + exact-token filter over the
vector results (`convex/search.ts` 56-83). -/
def searchExact (qtoks : List String) (ho : Bool) (hyd : Nat → Option SkillInfo)
    (results : List VecHit) : List HydEntry :=
  (searchFiltered ho (hydrateResults hyd (results.map VecHit.id))).filter (searchQualifies qtoks)

/-- The `while (candidateLimit <= maxCandidate)` loop of `searchSkills`
(`convex/search.ts` 49-92). The vector index is modelled as the ranked pool
`pool`, of which a top-K call with limit `k` returns `pool.take k`. Returns
the last iteration's `(results, exactMatches)`. The loop terminates because
`candidateLimit` strictly increases while staying `≤ maxCandidate`, so `fuel =
maxCandidate + 1` (as passed by `searchSkills`) is never exhausted; the
fuel-exhaustion branch is unreachable there (`searchLoop_fuel_irrelevant`). -/
def searchLoop (qtoks : List String) (limit : Nat) (ho : Bool) (pool : List VecHit)
    (hyd : Nat → Option SkillInfo) (maxCandidate : Nat) :
    Nat → Nat → List VecHit × List HydEntry
  | 0, _ => ([], [])
  | fuel + 1, candidateLimit =>
    if candidateLimit ≤ maxCandidate then
      let results := pool.take candidateLimit
      let exactMatches := searchExact qtoks ho hyd results
      if limit ≤ exactMatches.length ∨ results.length < candidateLimit then
        (results, exactMatches)
      else
        match getNextCandidateLimit candidateLimit maxCandidate with
        | none => (results, exactMatches)
        | some next => searchLoop qtoks limit ho pool hyd maxCandidate fuel next
    else ([], [])

/-- `scoreById.get(entry.embeddingId) ?? 0` (`convex/search.ts` 60-62, 97):
the score the final vector call assigned to embedding `i`. -/
def scoreOf (results : List VecHit) (i : Nat) : Nat :=
  match results.find? (fun h => h.id = i) with
  | some h => h.score
  | none => 0

/-- The `searchSkills` action (`convex/search.ts` 29-101). `embedOk` is the
outcome of the external `generateEmbedding` call; `pool` is the ranked
candidate list the vector index would return, already restricted to
`visibility ∈ {latest, latest-approved}`; `hyd` is the hydration database
view. -/
def searchSkills (query : String) (limitArg : Option Nat) (highlightedOnly : Bool)
    (embedOk : Bool) (pool : List VecHit) (hyd : Nat → Option SkillInfo) :
    List (HydEntry × Nat) :=
  let q := jsTrim query
  if q = "" then []
  else
    let queryTokens := tokenize q
    if queryTokens.length = 0 then []
    else if embedOk = false then []
    else
      let limit := limitArg.getD 10
      let maxCandidate := min (max (limit * 10) 200) 256
      let candidateLimit := min (max (limit * 3) 50) 256
      let out := searchLoop queryTokens limit highlightedOnly pool hyd maxCandidate
        (maxCandidate + 1) candidateLimit
      (out.2.map (fun e => (e, scoreOf out.1 e.embeddingId))).take limit


theorem searchExact_nil (qtoks : List String) (ho : Bool) (hyd : Nat → Option SkillInfo) :
    searchExact qtoks ho hyd [] = [] := by
  cases ho <;> simp [searchExact, searchFiltered, hydrateResults]

theorem searchLoop_fuel_irrelevant (qtoks : List String) (limit : Nat) (ho : Bool)
    (pool : List VecHit) (hyd : Nat → Option SkillInfo) (maxC : Nat) :
    ∀ n m k, maxC + 1 - k ≤ n → maxC + 1 - k ≤ m →
      searchLoop qtoks limit ho pool hyd maxC n k =
        searchLoop qtoks limit ho pool hyd maxC m k := by
  intro n
  induction n with
  | zero =>
    intro m k hn hm
    have hk : maxC < k := by omega
    cases m with
    | zero => rfl
    | succ m => rw [searchLoop, searchLoop, if_neg (by omega)]
  | succ n ih =>
    intro m k hn hm
    by_cases hle : k ≤ maxC
    · have hm1 : 1 ≤ m := by omega
      obtain ⟨m, rfl⟩ : ∃ m', m = m' + 1 := ⟨m - 1, by omega⟩
      rw [searchLoop, searchLoop, if_pos hle, if_pos hle]
      by_cases hstop : limit ≤ (searchExact qtoks ho hyd (pool.take k)).length ∨
          (pool.take k).length < k
      · rw [if_pos hstop, if_pos hstop]
      · rw [if_neg hstop, if_neg hstop]
        cases hnext : getNextCandidateLimit k maxC with
        | none => rfl
        | some next =>
          have hlt : k < next ∧ next ≤ maxC := by
            simp only [getNextCandidateLimit] at hnext
            by_cases hc : k < min (k * 2) maxC
            · rw [if_pos hc] at hnext
              injection hnext with he
              omega
            · rw [if_neg hc] at hnext
              exact absurd hnext (by simp)
          exact ih m next (by omega) (by omega)
    · cases m with
      | zero => rw [searchLoop, searchLoop, if_neg hle]
      | succ m => rw [searchLoop, searchLoop, if_neg hle, if_neg hle]

theorem searchLoop_shape (qtoks : List String) (limit : Nat) (ho : Bool) (pool : List VecHit)
    (hyd : Nat → Option SkillInfo) (maxC : Nat) :
    ∀ n k, ∃ kk, searchLoop qtoks limit ho pool hyd maxC n k =
        (pool.take kk, searchExact qtoks ho hyd (pool.take kk)) := by
  intro n
  induction n with
  | zero =>
    intro k
    refine ⟨0, ?_⟩
    rw [searchLoop]
    rw [List.take_zero, searchExact_nil]
  | succ n ih =>
    intro k
    by_cases hle : k ≤ maxC
    · rw [searchLoop, if_pos hle]
      by_cases hstop : limit ≤ (searchExact qtoks ho hyd (pool.take k)).length ∨
          (pool.take k).length < k
      · rw [if_pos hstop]
        exact ⟨k, rfl⟩
      · rw [if_neg hstop]
        cases getNextCandidateLimit k maxC with
        | none => exact ⟨k, rfl⟩
        | some next => exact ih next
    · refine ⟨0, ?_⟩
      rw [searchLoop, if_neg hle]
      rw [List.take_zero, searchExact_nil]

theorem searchLoop_small_pool (qtoks : List String) (limit : Nat) (ho : Bool)
    (pool : List VecHit) (hyd : Nat → Option SkillInfo) (maxC n k : Nat)
    (hk : pool.length < k) (hkm : k ≤ maxC) :
    searchLoop qtoks limit ho pool hyd maxC (n + 1) k =
      (pool, searchExact qtoks ho hyd pool) := by
  rw [searchLoop, if_pos hkm]
  have htake : pool.take k = pool := List.take_of_length_le (Nat.le_of_lt hk)
  rw [htake]
  rw [if_pos (Or.inr (by omega))]


theorem searchSkills_length_le (query : String) (limitArg : Option Nat) (ho eo : Bool)
    (pool : List VecHit) (hyd : Nat → Option SkillInfo) :
    (searchSkills query limitArg ho eo pool hyd).length ≤ limitArg.getD 10 := by
  simp only [searchSkills]
  by_cases h1 : jsTrim query = ""
  · rw [if_pos h1]; simp
  · rw [if_neg h1]
    by_cases h2 : (tokenize (jsTrim query)).length = 0
    · rw [if_pos h2]; simp
    · rw [if_neg h2]
      by_cases h3 : eo = false
      · rw [if_pos h3]; simp
      · rw [if_neg h3]
        rw [List.length_take]
        exact min_le_left _ _

/-- Example ranked candidate pool: three live embeddings. -/
def exSearchPool : List VecHit := [⟨10, 5⟩, ⟨11, 4⟩, ⟨12, 3⟩]

/-- Example hydration view for `exSearchPool`. -/
def exSearchHyd : Nat → Option SkillInfo := fun i =>
  if i = 10 then some ⟨"Hello World", "hello-world", none, false⟩
  else if i = 11 then some ⟨"Other", "other", some "nothing here", false⟩
  else if i = 12 then some ⟨"Hello again world", "misc", none, false⟩
  else none

/-- C5: exact-token gating in `searchSkills`. (1) Every returned entry passes
`matchesExactTokens` over its `displayName`, `slug` and `summary` for the
tokens of the trimmed query. (2) Whenever the candidate pool fits inside the
initial candidate window (fewer than 50 hits) and the query has tokens, the
returned list is exactly the qualifying hydrated hits in vector-index order,
each paired with its vector score, truncated to the requested limit. -/
theorem search_exact_token_gating (query : String) (limitArg : Option Nat) (ho eo : Bool)
    (pool : List VecHit) (hyd : Nat → Option SkillInfo) :
    (∀ p ∈ searchSkills query limitArg ho eo pool hyd,
        searchQualifies (tokenize (jsTrim query)) p.1 = true) ∧
    (pool.length < 50 → jsTrim query ≠ "" → tokenize (jsTrim query) ≠ [] →
      searchSkills query limitArg ho true pool hyd =
        ((searchExact (tokenize (jsTrim query)) ho hyd pool).map
            (fun e => (e, scoreOf pool e.embeddingId))).take (limitArg.getD 10)) := by
  constructor
  · intro p hp
    simp only [searchSkills] at hp
    by_cases h1 : jsTrim query = ""
    · rw [if_pos h1] at hp; simp at hp
    · rw [if_neg h1] at hp
      by_cases h2 : (tokenize (jsTrim query)).length = 0
      · rw [if_pos h2] at hp; simp at hp
      · rw [if_neg h2] at hp
        by_cases h3 : eo = false
        · rw [if_pos h3] at hp; simp at hp
        · rw [if_neg h3] at hp
          obtain ⟨kk, hkk⟩ := searchLoop_shape (tokenize (jsTrim query)) (limitArg.getD 10)
            ho pool hyd (min (max (limitArg.getD 10 * 10) 200) 256)
            (min (max (limitArg.getD 10 * 10) 200) 256 + 1)
            (min (max (limitArg.getD 10 * 3) 50) 256)
          rw [hkk] at hp
          have hp2 := List.mem_of_mem_take hp
          rw [List.mem_map] at hp2
          obtain ⟨e, he, rfl⟩ := hp2
          simp only [searchExact, List.mem_filter] at he
          exact he.2
  · intro hpool h1 h2
    simp only [searchSkills]
    rw [if_neg h1]
    rw [if_neg (fun hc => h2 (List.length_eq_zero.mp hc))]
    rw [if_neg (by simp)]
    rw [searchLoop_small_pool _ _ _ _ _ _ _ _ (by omega) (by omega)]

theorem search_exact_token_gating_witness :
    (∀ p ∈ searchSkills "hello world" (some 2) false true exSearchPool exSearchHyd,
        searchQualifies (tokenize (jsTrim "hello world")) p.1 = true) ∧
    searchSkills "hello world" (some 2) false true exSearchPool exSearchHyd =
      ((searchExact (tokenize (jsTrim "hello world")) false exSearchHyd exSearchPool).map
          (fun e => (e, scoreOf exSearchPool e.embeddingId))).take 2 :=
  ⟨(search_exact_token_gating "hello world" (some 2) false true exSearchPool exSearchHyd).1,
   (search_exact_token_gating "hello world" (some 2) false true exSearchPool exSearchHyd).2
     (by decide) (by decide) (by decide)⟩

/-- A pool of 51 distinct live embeddings all titled `aa`. -/
def ex51Pool : List VecHit := (List.range 51).map (fun i => ⟨i, 0⟩)

/-- Hydration view for `ex51Pool`. -/
def ex51Hyd : Nat → Option SkillInfo := fun _ => some ⟨"aa", "aa", none, false⟩

/-- C7 counterexample: `searchSkills` never clamps the requested limit to 50 —
a call with `limit = 51` returns 51 results, refuting "the number of results
returned by searchSkills is at most min(requested limit, 50)". -/
theorem search_limit_not_capped_at_50 :
    (searchSkills "aa" (some 51) false true ex51Pool ex51Hyd).length = 51 := by
  simp only [searchSkills]
  rw [if_neg (by decide)]
  rw [if_neg (by decide)]
  rw [if_neg (by simp)]
  rw [searchLoop_small_pool _ _ _ _ _ _ _ _ (by decide) (by decide)]
  decide

/-- C7 (amended): the effective search limit defaults to 10 when the request
leaves it unspecified, and the result count never exceeds the requested
limit; the code applies no cap of 50 (see `search_limit_not_capped_at_50`). -/
theorem search_limit_default (query : String) (ho eo : Bool) (pool : List VecHit)
    (hyd : Nat → Option SkillInfo) (limitArg : Option Nat) :
    (searchSkills query none ho eo pool hyd).length ≤ 10 ∧
    (searchSkills query limitArg ho eo pool hyd).length ≤ limitArg.getD 10 :=
  ⟨searchSkills_length_le query none ho eo pool hyd,
   searchSkills_length_le query limitArg ho eo pool hyd⟩


/-! ## HTTP rate limiter (`convex/httpApiV1.ts` 635-694) -/

/-- `RATE_LIMIT_WINDOW_MS` (`convex/httpApiV1.ts` 10). -/
def RATE_LIMIT_WINDOW_MS : Nat := 60000

/-- A request class (`convex/httpApiV1.ts` 11-14). -/
inductive RateKind where
  | read
  | write
deriving Repr, DecidableEq

/-- `RATE_LIMITS[kind]` as `(ip, key)` budgets (`convex/httpApiV1.ts` 11-14). -/
def RATE_LIMITS : RateKind → Nat × Nat
  | .read => (120, 600)
  | .write => (30, 120)

/-- One keyed counter of the rate-limit store (§5: "a keyed map of
`{windowStart, count}`"). -/
structure RateCounter where
  windowStart : Nat
  count : Nat
deriving Repr, DecidableEq

/-- The result shape returned by the limiter mutation
(`convex/httpApiV1.ts` 659-664). -/
structure RateLimitResult where
  allowed : Bool
  remaining : Nat
  limit : Nat
  resetAt : Nat
deriving Repr, DecidableEq

/-- Modelled from the spec: `convex/rateLimits.ts` is not part of the provided
sources. §5 describes the store as a keyed map of `{windowStart, count}`
counters mutated by atomic increment with entries expiring after one window,
and §7/§8.3 fix `Retry-After ≤ windowMs/1000` and `Retry-After ≥ 1` on
denial, so `resetAt` is the remaining time of the active window in
milliseconds. A request within the window increments the counter, otherwise a
fresh window starts at `now`; the request is allowed while the incremented
count stays within `limit`. -/
def checkRateLimitInternal (counter : Option RateCounter) (now limit windowMs : Nat) :
    RateLimitResult × RateCounter :=
  let c : RateCounter := match counter with
    | some c => if now < c.windowStart + windowMs then ⟨c.windowStart, c.count + 1⟩ else ⟨now, 1⟩
    | none => ⟨now, 1⟩
  ({ allowed := c.count ≤ limit
     remaining := limit - c.count
     limit := limit
     resetAt := c.windowStart + windowMs - now }, c)

/-- `pickMostRestrictive` (`convex/httpApiV1.ts` 678-683). -/
def pickMostRestrictive (primary : RateLimitResult) (secondary : Option RateLimitResult) :
    RateLimitResult :=
  match secondary with
  | none => primary
  | some s =>
    if primary.allowed = false then primary
    else if s.allowed = false then s
    else if s.remaining < primary.remaining then s else primary

/-- The header set built by `rateHeaders` (`convex/httpApiV1.ts` 686-694):
`X-RateLimit-Limit`, `X-RateLimit-Remaining`, `X-RateLimit-Reset`, and
`Retry-After` only when denied. `(resetAt + 999) / 1000` is
`Math.ceil(resetAt / 1000)`. -/
structure RateHeaders where
  limit : Nat
  remaining : Nat
  reset : Nat
  retryAfter : Option Nat
deriving Repr, DecidableEq

/-- `rateHeaders` (`convex/httpApiV1.ts` 686-694). -/
def rateHeaders (r : RateLimitResult) : RateHeaders :=
  let resetSeconds := (r.resetAt + 999) / 1000
  { limit := r.limit
    remaining := r.remaining
    reset := resetSeconds
    retryAfter := if r.allowed then none else some resetSeconds }

/-- Outcome of `applyRateLimit`: pass-through headers, or an error response. -/
inductive RateOutcome where
  | ok (headers : RateHeaders)
  | denied (status : Nat) (headers : RateHeaders)
deriving Repr, DecidableEq

/-- `applyRateLimit` (`convex/httpApiV1.ts` 634-657), given the per-IP counter
outcome and the optional per-token counter outcome. -/
def applyRateLimit (ipResult : RateLimitResult) (keyResult : Option RateLimitResult) :
    RateOutcome :=
  let chosen := pickMostRestrictive ipResult keyResult
  let headers := rateHeaders chosen
  if !ipResult.allowed || (match keyResult with
      | some k => !k.allowed
      | none => false) then
    RateOutcome.denied 429 headers
  else RateOutcome.ok headers

/-- C8: once the per-IP counter of the 60-second window is exhausted
(`limit ≤ count` already), the next request in the window is denied with
status 429; its headers are built by `rateHeaders` from the most restrictive
counter and carry `Retry-After` between 1 and `windowMs / 1000 = 60` seconds.
Moreover, when both counters allow, the chosen header counter is the one with
the smaller `remaining`. -/
theorem rate_limit_denial (ipC : RateCounter) (keyR : Option RateLimitResult)
    (now limit : Nat) (r : RateLimitResult) (c' : RateCounter)
    (hwin : ipC.windowStart ≤ now) (hin : now < ipC.windowStart + RATE_LIMIT_WINDOW_MS)
    (hexh : limit ≤ ipC.count)
    (hr : checkRateLimitInternal (some ipC) now limit RATE_LIMIT_WINDOW_MS = (r, c')) :
    (∃ t, applyRateLimit r keyR = RateOutcome.denied 429 (rateHeaders (pickMostRestrictive r keyR)) ∧
        (rateHeaders (pickMostRestrictive r keyR)).retryAfter = some t ∧
        1 ≤ t ∧ t ≤ RATE_LIMIT_WINDOW_MS / 1000) ∧
    (∀ p s : RateLimitResult, p.allowed = true → s.allowed = true →
        (pickMostRestrictive p (some s)).remaining = min p.remaining s.remaining) := by
  constructor
  · simp only [checkRateLimitInternal, RATE_LIMIT_WINDOW_MS] at hr hin
    simp only [if_pos hin] at hr
    simp only [Prod.mk.injEq] at hr
    obtain ⟨hr1, -⟩ := hr
    subst hr1
    have hall : (decide (ipC.count + 1 ≤ limit)) = false := by
      rw [decide_eq_false_iff_not]
      omega
    have hpick : ∀ kR, pickMostRestrictive
        ⟨decide (ipC.count + 1 ≤ limit), limit - (ipC.count + 1), limit,
          ipC.windowStart + 60000 - now⟩ kR =
        ⟨decide (ipC.count + 1 ≤ limit), limit - (ipC.count + 1), limit,
          ipC.windowStart + 60000 - now⟩ := by
      intro kR
      cases kR with
      | none => rfl
      | some s => simp [pickMostRestrictive, hall]
    refine ⟨(ipC.windowStart + 60000 - now + 999) / 1000, ?_, ?_, ?_, ?_⟩
    · simp only [applyRateLimit, hpick]
      rw [if_pos (by simp [hall])]
    · rw [hpick]
      simp only [rateHeaders, hall]
      rfl
    · omega
    · simp only [RATE_LIMIT_WINDOW_MS]
      omega
  · intro p s hp hs
    simp only [pickMostRestrictive, hp, hs]
    norm_num
    split_ifs with h <;> omega

/-- The denied per-IP limiter result of the witness scenario. -/
def exRateResult : RateLimitResult :=
  { allowed := false, remaining := 0, limit := 30, resetAt := 1 }

theorem rate_limit_denial_witness :
    (∃ t, applyRateLimit exRateResult none
          = RateOutcome.denied 429 (rateHeaders (pickMostRestrictive exRateResult none)) ∧
        (rateHeaders (pickMostRestrictive exRateResult none)).retryAfter = some t ∧
        1 ≤ t ∧ t ≤ RATE_LIMIT_WINDOW_MS / 1000) ∧
    (∀ p s : RateLimitResult, p.allowed = true → s.allowed = true →
        (pickMostRestrictive p (some s)).remaining = min p.remaining s.remaining) :=
  rate_limit_denial ⟨0, 30⟩ none 59999 30 exRateResult ⟨0, 31⟩
    (by decide) (by decide) (by decide) (by decide)


/-! ## CLI sync planner (`src/unnamed/part_007`) -/

/-- A candidate's sync status (`cmdSync`). -/
inductive SyncStatus where
  | new
  | synced
  | update
deriving Repr, DecidableEq

/-- The classification fields of a sync candidate (`cmdSync`,
`src/unnamed/part_007` 743-789). -/
structure SyncCandidate where
  status : SyncStatus
  matchVersion : Option String
  latestVersion : Option String
deriving Repr, DecidableEq

/-- The registry-sync classification of one local skill (`cmdSync`,
`src/unnamed/part_007` 743-789): `latestVersion` is
`meta?.latestVersion?.version ?? null` — when absent the skill is `new`;
otherwise `resolvedMatch` is `resolved.match?.version ?? null` from the
fingerprint resolver and the skill is `synced` on a match, `update`
otherwise. -/
def classifyCandidate (latestVersion : Option String) (resolvedMatch : Option String) :
    SyncCandidate :=
  match latestVersion with
  | none => { status := .new, matchVersion := none, latestVersion := none }
  | some lv =>
    match resolvedMatch with
    | some mv => { status := .synced, matchVersion := some mv, latestVersion := some lv }
    | none => { status := .update, matchVersion := none, latestVersion := some lv }

/-- A semver bump kind (`--bump patch|minor|major`). -/
inductive Bump where
  | patch
  | minor
  | major
deriving Repr, DecidableEq

/-- `const bump = options.bump ?? 'patch'` (`cmdSync`, `src/unnamed/part_007`
806). -/
def syncBump (optBump : Option Bump) : Bump := optBump.getD .patch

/-- Numeric value of a digit run. -/
def digitsToNat (l : List Char) : Nat := l.foldl (fun a c => a * 10 + (c.toNat - 48)) 0

/-- Decimal digits of `n`, most significant first; `fuel ≥ 1` bounds the
division chain (`n + 1` always suffices). -/
def natToDigitsAux : Nat → Nat → List Char → List Char
  | 0, _, acc => acc
  | fuel + 1, n, acc =>
    let acc2 := Char.ofNat (48 + n % 10) :: acc
    if n / 10 = 0 then acc2 else natToDigitsAux fuel (n / 10) acc2

/-- Decimal rendering of `n`. -/
def natToDigits (n : Nat) : List Char := natToDigitsAux (n + 1) n []

/-- `x.y.z` as a string. -/
def renderSemver (x y z : Nat) : String :=
  String.mk (natToDigits x ++ '.' :: natToDigits y ++ '.' :: natToDigits z)

/-- Parse of a valid release version `x.y.z` (numeric components of
`semverValid`). -/
def parseSemver (s : String) : Option (Nat × Nat × Nat) :=
  if semverValid s then
    match splitOnChar '.' s.data with
    | [ma, mi, pa] => some (digitsToNat ma, digitsToNat mi, digitsToNat pa)
    | _ => none
  else none

/-- `semver.inc` of the external `semver` package, on release versions
`x.y.z`: `patch` increments `z`, `minor` increments `y` and zeroes `z`,
`major` increments `x` and zeroes `y` and `z`; invalid input yields `null`
(the package is an external dependency; this is its documented behaviour on
the release grammar used by the registry). -/
def semverInc (s : String) (bump : Bump) : Option String :=
  (parseSemver s).map fun p =>
    match bump with
    | .patch => renderSemver p.1 p.2.1 (p.2.2 + 1)
    | .minor => renderSemver p.1 (p.2.1 + 1) 0
    | .major => renderSemver (p.1 + 1) 0 0

/-- `resolvePublishMeta` (`src/unnamed/part_007` 919-947). `fail` (which
throws) is `none`; `promptEntry` is the text the interactive prompt would
return. -/
def resolvePublishMeta (cand : SyncCandidate) (bump : Bump) (changelogFlag : Option String)
    (allowPrompt : Bool) (promptEntry : String) : Option (String × String) :=
  if cand.status = SyncStatus.new then some ("1.0.0", "")
  else
    match cand.latestVersion with
    | none => none
    | some latest =>
      match semverInc latest bump with
      | none => none
      | some publishVersion =>
        let fromFlag := match changelogFlag with
          | some f => jsTrim f
          | none => ""
        if fromFlag ≠ "" then some (publishVersion, fromFlag)
        else if allowPrompt = false then some (publishVersion, "Sync update")
        else some (publishVersion, jsTrim promptEntry)

theorem resolvePublishMeta_update (lv pv : String) (bump : Bump) (cf : Option String)
    (ap : Bool) (pe : String) (hinc : semverInc lv bump = some pv) :
    ∃ cl, resolvePublishMeta (classifyCandidate (some lv) none) bump cf ap pe = some (pv, cl) := by
  simp only [resolvePublishMeta, classifyCandidate, hinc]
  rw [if_neg (by decide)]
  by_cases hf : (match cf with | some f => jsTrim f | none => "") = ""
  · rw [if_neg (fun hc => hc hf)]
    cases ap with
    | false => exact ⟨"Sync update", by rw [if_pos rfl]⟩
    | true => exact ⟨jsTrim pe, by rw [if_neg (by simp)]⟩
  · exact ⟨_, by rw [if_pos hf]⟩

/-- C9: sync classification and versioning. A slug with no registry latest
version is `new`; with a latest version, a fingerprint-resolver match means
`synced` (carrying the matched version) and no match means `update`. A
selected `new` item publishes at `1.0.0` with an empty changelog; a selected
`update` item publishes at the semver bump of the registry's latest version —
`patch`, `minor` or `major`, defaulting to `patch` when no `--bump` option is
given. -/
theorem cli_sync_classification (lv mv : String) (r : Option String)
    (optBump : Option Bump) (cf : Option String) (ap : Bool) (pe : String) (x y z : Nat) :
    (classifyCandidate none r).status = SyncStatus.new ∧
    (classifyCandidate (some lv) (some mv)).status = SyncStatus.synced ∧
    (classifyCandidate (some lv) (some mv)).matchVersion = some mv ∧
    (classifyCandidate (some lv) none).status = SyncStatus.update ∧
    resolvePublishMeta (classifyCandidate none r) (syncBump optBump) cf ap pe
      = some ("1.0.0", "") ∧
    syncBump none = Bump.patch ∧
    (parseSemver lv = some (x, y, z) →
      ∃ cl, resolvePublishMeta (classifyCandidate (some lv) none) (syncBump optBump) cf ap pe =
        some ((match syncBump optBump with
          | Bump.patch => renderSemver x y (z + 1)
          | Bump.minor => renderSemver x (y + 1) 0
          | Bump.major => renderSemver (x + 1) 0 0), cl)) := by
  refine ⟨rfl, rfl, rfl, rfl, rfl, rfl, ?_⟩
  intro hparse
  apply resolvePublishMeta_update
  cases hb : syncBump optBump <;> simp [semverInc, hparse]


theorem cli_sync_classification_witness :
    parseSemver "1.2.3" = some (1, 2, 3) ∧
    (∃ cl, resolvePublishMeta (classifyCandidate (some "1.2.3") none) (syncBump none) none false ""
        = some (renderSemver 1 2 4, cl)) ∧
    (classifyCandidate none none).status = SyncStatus.new :=
  ⟨by decide,
   (cli_sync_classification "1.2.3" "1.0.0" none none none false "" 1 2 3).2.2.2.2.2.2 (by decide),
   (cli_sync_classification "1.2.3" "1.0.0" none none none false "" 1 2 3).1⟩

end Molthub
